import Mathlib

/-!
# GLV decomposition, G2 endomorphism and G2 scalar multiplication of the BLS12-377 library

A shallow embedding of `glv.go` (package `bls12377`): the GLV constants, the two
scalar decompositions `glvVectorBig.new` (arbitrary precision) and
`glvVectorFr.new` (four-word scalars), the sign handling of the two `wnaf`
methods and the endomorphism `G2.glvEndomorphism`.

Arbitrary-precision integers (`*big.Int`) are `Int`; `Rsh` is `>>>` and `Mod`
is the Euclidean `%`.  A four-word scalar `Fr` is a record of four limbs, least
significant first, read through `Fr.toNat`.

What `glv.go` only calls or what only the tests of `g2_test.go` exercise is
modelled from the specification and marked so: the scalar field operations, the
base and extension field (an abstract field `F` and pairs over it), and the group
layer (`MulScalar`, `wnafMul`, `MultiExp`, `ClearCofactor`, `InCorrectSubgroup`),
which is stated over an abstract commutative group `G` of points taken up to
`Equal`.
-/

namespace bls12377

/-! ## Arbitrary-precision constants -/

/-- The constant `glvQ1Big` of glv.go: x^2 * R / q. -/
def glvQ1Big : Int := 0x3b3f7aa969fd371607f72ed32af90182c

/-- The constant `glvQ2Big` of glv.go. -/
def glvQ2Big : Int := 0x0e

/-- The constant `glvB1Big` of glv.go: x^2 - 1. -/
def glvB1Big : Int := 0x452217cc900000010a11800000000000

/-- The constant `glvB2Big` of glv.go: x^2. -/
def glvB2Big : Int := 0x452217cc900000010a11800000000001

/-- The constant `glvLambdaBig` of glv.go: x^2 - 1. -/
def glvLambdaBig : Int := 0x452217cc900000010a11800000000000

/-- Modelled from the spec: `qBig`, the group order `q`, declared outside glv.go;
its value is the one the decomposition contract states, `B2^2 - B2 + 1`. -/
def qBig : Int := 0x12ab655e9a2ca55660b44d1e5c37b00159aa76fed00000010a11800000000001

/-- Modelled from the spec: `halfRBig`, declared outside glv.go; half of the
power of two `R = 2^256` used by the rounded division, that is `2^255`. -/
def halfRBig : Int := 0x8000000000000000000000000000000000000000000000000000000000000000

/-- Modelled from the spec: `fourWordBitSize`, declared outside glv.go; the bit
size of four 64-bit words. -/
def fourWordBitSize : Nat := 256

/-! ## Four-word scalars -/

/-- Modelled from the spec: the type `Fr`, declared outside glv.go; a scalar held
in four 64-bit words, least significant word first. -/
structure Fr where
  w0 : Nat
  w1 : Nat
  w2 : Nat
  w3 : Nat
deriving DecidableEq, Repr

/-- The integer a four-word scalar denotes (words read little-endian). -/
def Fr.toNat (a : Fr) : Nat :=
  a.w0 + a.w1 * 2 ^ 64 + a.w2 * 2 ^ 128 + a.w3 * 2 ^ 192

/-- The four-word scalar holding the low 256 bits of `n`. -/
def Fr.ofNat (n : Nat) : Fr :=
  { w0 := n % 2 ^ 64
    w1 := n / 2 ^ 64 % 2 ^ 64
    w2 := n / 2 ^ 128 % 2 ^ 64
    w3 := n / 2 ^ 192 % 2 ^ 64 }

/-- Modelled from the spec: `Fr.Mul`, declared outside glv.go; multiplication
modulo the group order `q`. -/
def Fr.Mul (a b : Fr) : Fr :=
  Fr.ofNat (((a.toNat : Int) * (b.toNat : Int)) % qBig).toNat

/-- Modelled from the spec: `Fr.Sub`, declared outside glv.go; subtraction
modulo the group order `q`. -/
def Fr.Sub (a b : Fr) : Fr :=
  Fr.ofNat (((a.toNat : Int) - (b.toNat : Int)) % qBig).toNat

/-- Modelled from the spec: `Fr.Neg`, declared outside glv.go; negation modulo
the group order `q`. -/
def Fr.Neg (a : Fr) : Fr :=
  Fr.ofNat ((-(a.toNat : Int)) % qBig).toNat

/-- Modelled from the spec: `Fr.Cmp`, declared outside glv.go; three-way
comparison of the denoted integers, `1` when the receiver is larger. -/
def Fr.Cmp (a b : Fr) : Int :=
  if b.toNat < a.toNat then 1 else if a.toNat < b.toNat then -1 else 0

/-- Modelled from the spec: the type `wideFr`, declared outside glv.go; an
eight-word (512-bit) integer. -/
structure wideFr where
  val : Nat
deriving DecidableEq, Repr

/-- Modelled from the spec: `wideFr.mul`, declared outside glv.go; the exact
512-bit product of two four-word scalars. -/
def wideFr.mul (a b : Fr) : wideFr :=
  { val := a.toNat * b.toNat }

/-- Modelled from the spec: `wideFr.round`, declared outside glv.go; the rounded
division by `R = 2^256`, `floor((a + 2^255) / 2^256)`. -/
def wideFr.round (a : wideFr) : Fr :=
  Fr.ofNat ((a.val + 2 ^ 255) / 2 ^ 256)

/-! ## Four-word constants -/

/-- The constant `glvQ1` of glv.go. -/
def glvQ1 : Fr := ⟨0x7f72ed32af90182c, 0xb3f7aa969fd37160, 0x03, 0⟩

/-- The constant `glvQ2` of glv.go. -/
def glvQ2 : Fr := ⟨0x0d, 0, 0, 0⟩

/-- The constant `glvB1` of glv.go. -/
def glvB1 : Fr := ⟨0x0a11800000000000, 0x452217cc90000001, 0, 0⟩

/-- The constant `glvB2` of glv.go. -/
def glvB2 : Fr := ⟨0x0a11800000000001, 0x452217cc90000001, 0, 0⟩

/-- The constant `glvLambda` of glv.go. -/
def glvLambda : Fr := ⟨0x0a11800000000000, 0x452217cc90000001, 0, 0⟩

/-- The constant `r128` of glv.go: 2^128 - 1. -/
def r128 : Fr := ⟨0xffffffffffffffff, 0xffffffffffffffff, 0, 0⟩

/-! ## GLV vectors -/

/-- The struct `glvVectorFr` of glv.go (the scalars are held by value). -/
structure glvVectorFr where
  k1 : Fr
  k2 : Fr
  neg1 : Bool
  neg2 : Bool
deriving DecidableEq, Repr

/-- The struct `glvVectorBig` of glv.go. -/
structure glvVectorBig where
  k1 : Int
  k2 : Int
deriving DecidableEq, Repr

/-- A freshly allocated `glvVectorFr`: zero scalars, both flags false. -/
def glvVectorFr.fresh : glvVectorFr :=
  { k1 := ⟨0, 0, 0, 0⟩, k2 := ⟨0, 0, 0, 0⟩, neg1 := false, neg2 := false }

/-- A freshly allocated `glvVectorBig`. -/
def glvVectorBig.fresh : glvVectorBig :=
  { k1 := 0, k2 := 0 }

/-- The function `alpha1` of glv.go: round(x^2 * m / q). -/
def alpha1 (m : Fr) : Fr :=
  (wideFr.mul m glvQ1).round

/-- The function `alpha2` of glv.go: round(m / q). -/
def alpha2 (m : Fr) : Fr :=
  (wideFr.mul m glvQ2).round

/-- The method `glvVectorFr.new` of glv.go, on receiver `v`. -/
def glvVectorFr.new (v : glvVectorFr) (m : Fr) : glvVectorFr :=
  let a1 := alpha1 m
  let a2 := alpha2 m
  let z1 := Fr.Mul a1 glvB1
  let z2 := Fr.Mul a2 glvB2
  let k1 := Fr.Sub m z1
  let k1 := Fr.Sub k1 a2
  let k2 := Fr.Sub z2 a1
  let big1 := decide (Fr.Cmp k1 r128 = 1)
  let k1 := if big1 then Fr.Neg k1 else k1
  let neg1 := if big1 then true else v.neg1
  let big2 := decide (Fr.Cmp k2 r128 = 1)
  let k2 := if big2 then Fr.Neg k2 else k2
  let neg2 := if big2 then true else v.neg2
  { k1 := k1, k2 := k2, neg1 := neg1, neg2 := neg2 }

/-- The method `glvVectorBig.new` of glv.go, on receiver `v` (both fields are
overwritten). -/
def glvVectorBig.new (_v : glvVectorBig) (m : Int) : glvVectorBig :=
  let alpha1 := (m * glvQ1Big + halfRBig) >>> fourWordBitSize
  let alpha2 := (m * glvQ2Big + halfRBig) >>> fourWordBitSize
  let z1 := (alpha1 * glvB1Big) % qBig
  let z2 := (alpha2 * glvB2Big) % qBig
  let k1 := m - z1 - alpha2
  let k2 := z2 - alpha1
  { k1 := k1, k2 := k2 }

/-! ## Integer halves of the four-word decomposition -/

/-- The first half `m - alpha1 * glvB1 - alpha2` of the four-word decomposition
as an integer, before any reduction modulo `q`; the rounded quotients are those of
`alpha1` and `alpha2`, with the multipliers `glvQ1` and `glvQ2`. -/
def frK1 (m : Fr) : Int :=
  let a1 := ((m.toNat : Int) * (glvQ1.toNat : Int) + halfRBig) >>> fourWordBitSize
  let a2 := ((m.toNat : Int) * (glvQ2.toNat : Int) + halfRBig) >>> fourWordBitSize
  (m.toNat : Int) - a1 * (glvB1.toNat : Int) - a2

/-- The second half `alpha2 * glvB2 - alpha1` of the four-word decomposition as
an integer, before any reduction modulo `q`. -/
def frK2 (m : Fr) : Int :=
  let a1 := ((m.toNat : Int) * (glvQ1.toNat : Int) + halfRBig) >>> fourWordBitSize
  let a2 := ((m.toNat : Int) * (glvQ2.toNat : Int) + halfRBig) >>> fourWordBitSize
  a2 * (glvB2.toNat : Int) - a1

/-- The scalar `ceil(2^255 / 14)`, a value below `q` at which the multipliers
`13` and `14` round differently. -/
def divergingScalar : Fr :=
  ⟨0x4924924924924925, 0x2492492492492492, 0x9249249249249249, 0x0924924924924924⟩

/-! ## Field and point model for G2 -/

section G2Model

variable {F : Type} [Field F] [DecidableEq F]

/-- Modelled from the spec: base-field multiplication `mul(c, a, b)`, declared
outside glv.go; the product `a * b` of two base-field elements, written to `c`. -/
def mul (a b : F) : F := a * b

/-- Modelled from the spec: the type `fe2`, declared outside glv.go; an ordered
pair of base-field elements standing for `c0 + c1 * u`. -/
structure fe2 (F : Type) where
  c0 : F
  c1 : F
deriving DecidableEq, Repr

/-- Modelled from the spec: `fe2.zero`, the additive identity of the extension. -/
def fe2.zero : fe2 F := ⟨0, 0⟩

/-- Modelled from the spec: `fe2.one`, the multiplicative identity of the extension. -/
def fe2.one : fe2 F := ⟨1, 0⟩

/-- Modelled from the spec: the extension-field context `fp2`, declared outside
glv.go; it fixes the non-residue `u^2`. -/
structure fp2 (F : Type) where
  nonResidue : F

/-- Modelled from the spec: `fp2.mul`, multiplication of `a0 + a1 u` and `b0 + b1 u`. -/
def fp2.mul (e : fp2 F) (a b : fe2 F) : fe2 F :=
  ⟨a.c0 * b.c0 + e.nonResidue * (a.c1 * b.c1), a.c0 * b.c1 + a.c1 * b.c0⟩

/-- Modelled from the spec: `fp2.square`. -/
def fp2.square (e : fp2 F) (a : fe2 F) : fe2 F := e.mul a a

/-- Modelled from the spec: `fp2.inverse`, the conjugate over the norm. -/
def fp2.inverse (e : fp2 F) (a : fe2 F) : fe2 F :=
  let d := (a.c0 * a.c0 - e.nonResidue * (a.c1 * a.c1))⁻¹
  ⟨a.c0 * d, -(a.c1 * d)⟩

/-- The method `fp2.phi` of glv.go: both coefficients are multiplied by the
base-field constant `glvPhi2`. -/
def fp2.phi (_e : fp2 F) (glvPhi2 : F) (b : fe2 F) : fe2 F :=
  let a0 := bls12377.mul b.c0 glvPhi2
  let a1 := bls12377.mul b.c1 glvPhi2
  ⟨a0, a1⟩

/-- Modelled from the spec: the type `PointG2`, declared outside glv.go; Jacobian
coordinates `(X, Y, Z)`, the entries 0, 1 and 2 of the array. -/
structure PointG2 (F : Type) where
  x : fe2 F
  y : fe2 F
  z : fe2 F
deriving DecidableEq, Repr

/-- Modelled from the spec: `PointG2.Zero`, which overwrites the receiver with
the identity in its canonical form `(0, 1, 0)`. -/
def PointG2.Zero (_p : PointG2 F) : PointG2 F := ⟨fe2.zero, fe2.one, fe2.zero⟩

/-- Modelled from the spec: the group context `G2`, declared outside glv.go; it
holds the extension-field context `f`. -/
structure G2 (F : Type) where
  f : fp2 F

/-- Modelled from the spec: `G2.IsZero`, true iff `Z = 0`. -/
def G2.IsZero (_g : G2 F) (p : PointG2 F) : Bool := decide (p.z = fe2.zero)

/-- Modelled from the spec: `G2.Affine`, which normalises `Z` to `1` through one
field inversion, `(X * Z^-2, Y * Z^-3, 1)`, and maps the identity to its
canonical form. -/
def G2.Affine (g : G2 F) (p : PointG2 F) : PointG2 F :=
  if g.IsZero p then p.Zero
  else
    let t0 := g.f.inverse p.z
    let t1 := g.f.square t0
    let x := g.f.mul p.x t1
    let t0 := g.f.mul t0 t1
    let y := g.f.mul p.y t0
    ⟨x, y, fe2.one⟩

/-- The method `G2.glvEndomorphism` of glv.go, writing to the destination `r`. -/
def G2.glvEndomorphism (g : G2 F) (glvPhi2 : F) (r p : PointG2 F) : PointG2 F :=
  let t := g.Affine p
  if g.IsZero p then r.Zero
  else
    let r := { r with y := t.y }
    let r := { r with x := g.f.phi glvPhi2 t.x }
    let r := { r with z := fe2.one }
    r

/-- The reference map of the contract, in its words: the identity goes to the
identity; otherwise, with `(x, y) = (X / Z^2, Y / Z^3)` the affine coordinates
and `x = x0 + x1 u`, the image is `((glvPhi2 x0) + (glvPhi2 x1) u, y, 1)`. -/
def phiReference (g : G2 F) (glvPhi2 : F) (p : PointG2 F) : PointG2 F :=
  if p.z = fe2.zero then ⟨fe2.zero, fe2.one, fe2.zero⟩
  else
    let x := g.f.mul p.x (g.f.inverse (g.f.square p.z))
    let y := g.f.mul p.y (g.f.inverse (g.f.mul (g.f.square p.z) p.z))
    ⟨⟨glvPhi2 * x.c0, glvPhi2 * x.c1⟩, y, fe2.one⟩

end G2Model

/-! ## Signed-digit sequences -/

/-- Modelled from the spec: the type `nafNumber`, declared outside src; a sequence
of signed digits, least significant first. -/
abbrev nafNumber := List Int

/-- Modelled from the spec: `nafNumber.neg`, declared outside src; flips the sign
of every digit. -/
def nafNumber.neg (n : nafNumber) : nafNumber := n.map (fun d => -d)

/-- The integer a signed-digit sequence stands for: the sum of `d_i * 2^i`. -/
def nafNumber.eval : nafNumber → Int
  | [] => 0
  | d :: ds => d + 2 * nafNumber.eval ds

/-- Windowed non-adjacent recoding of `k` with window width `w`, in at most
`fuel` steps: an odd `k` gives the signed residue of `k` modulo `2^w` of
magnitude below `2^(w-1)`, an even `k` gives the digit zero. -/
def toWNAFAux (w : Nat) : Nat → Nat → nafNumber
  | 0, _ => []
  | fuel + 1, k =>
    if k = 0 then []
    else if k % 2 = 1 then
      let r := k % 2 ^ w
      if r < 2 ^ (w - 1) then (r : Int) :: toWNAFAux w fuel ((k - r) / 2)
      else ((r : Int) - 2 ^ w) :: toWNAFAux w fuel ((k + (2 ^ w - r)) / 2)
    else 0 :: toWNAFAux w fuel (k / 2)

/-- Modelled from the spec: `bigToWNAF`, declared outside src; the windowed
non-adjacent form of the magnitude of an arbitrary-precision scalar. -/
def bigToWNAF (e : Int) (w : Nat) : nafNumber :=
  toWNAFAux w e.natAbs e.natAbs

/-- The method `glvVectorBig.wnaf` of glv.go. -/
def glvVectorBig.wnaf (v : glvVectorBig) (w : Nat) : nafNumber × nafNumber :=
  let naf1 := bigToWNAF v.k1 w
  let naf2 := bigToWNAF v.k2 w
  let zero : Int := 0
  let naf1 := if v.k1 < zero then naf1.neg else naf1
  let naf2 := if v.k2 > zero then naf2.neg else naf2
  (naf1, naf2)

/-- Modelled from the spec: `Fr.toWNAF`, declared outside src; the windowed
non-adjacent form of a four-word scalar. -/
def Fr.toWNAF (a : Fr) (w : Nat) : nafNumber :=
  toWNAFAux w a.toNat a.toNat

/-- The method `glvVectorFr.wnaf` of glv.go. -/
def glvVectorFr.wnaf (v : glvVectorFr) (w : Nat) : nafNumber × nafNumber :=
  let naf1 := v.k1.toWNAF w
  let naf2 := v.k2.toWNAF w
  let naf1 := if v.neg1 then naf1.neg else naf1
  let naf2 := if !v.neg2 then naf2.neg else naf2
  (naf1, naf2)

/-- The variable `glvMulWindowG1` of glv.go. -/
def glvMulWindowG1 : Nat := 4

/-- The variable `glvMulWindowG2` of glv.go. -/
def glvMulWindowG2 : Nat := 4

/-- A digit of a width-`w` sequence: zero, or odd of magnitude below `2^(w-1)`. -/
def validDigit (w : Nat) (d : Int) : Prop :=
  d = 0 ∨ (d % 2 = 1 ∧ -(2 : Int) ^ (w - 1) < d ∧ d < 2 ^ (w - 1))

/-! ## Group model for G2 -/

section GroupModel

variable {G : Type} [AddCommGroup G]

/-- Modelled from the spec: `G2.Zero`, declared outside src; the identity point.
The spec asks the group operations to satisfy the additive group axioms up to
`Equal`; points are therefore taken up to `Equal`, as elements of an additive
commutative group `G`. -/
def G2.Zero : G := 0

/-- Modelled from the spec: `G2.Add`, declared outside src; the group law. -/
def G2.Add (a b : G) : G := a + b

/-- Modelled from the spec: `G2.Double`, declared outside src; a point added to itself. -/
def G2.Double (a : G) : G := a + a

/-- Modelled from the spec: `G2.Neg`, declared outside src; the inverse point. -/
def G2.Neg (a : G) : G := -a

/-- Modelled from the spec: `G2.Equal`, declared outside src; equality of the
points two Jacobian triples stand for. -/
def G2.Equal [DecidableEq G] (a b : G) : Bool := decide (a = b)

/-- Number of halvings that bring `e` to zero, counted with at most `fuel` steps. -/
def bitLenAux : Nat → Nat → Nat
  | 0, _ => 0
  | fuel + 1, e => if e = 0 then 0 else bitLenAux fuel (e / 2) + 1

/-- Modelled from the spec: `big.Int.BitLen`, the length of the binary expansion
of `e` (the fuel `e` always suffices). -/
def bitLen (e : Nat) : Nat := bitLenAux e e

/-- The double-and-add ladder on the `i` low bits of `e`, most significant first. -/
def G2.mulLadder (a : G) (e : Nat) : Nat → G → G
  | 0, acc => acc
  | i + 1, acc =>
    let acc := G2.Double acc
    let acc := if e.testBit i then G2.Add acc a else acc
    G2.mulLadder a e i acc

/-- Modelled from the spec: `G2.MulScalar`, declared outside src; naive
double-and-add over the binary expansion of `e`, most significant bit first. -/
def G2.MulScalar (a : G) (e : Nat) : G :=
  G2.mulLadder a e (bitLen e) G2.Zero

/-- Modelled from the spec: `G2.ClearCofactor`, declared outside src; multiplies
the point by the cofactor of the curve, a fixed constant `h`. -/
def G2.ClearCofactor (h : Nat) (p : G) : G := G2.MulScalar p h

/-- Modelled from the spec: `G2.InCorrectSubgroup`, declared outside src; true iff
multiplying the point by the group order `q` yields the identity. -/
def G2.InCorrectSubgroup [DecidableEq G] (p : G) : Bool :=
  decide (G2.MulScalar p qBig.toNat = (G2.Zero : G))

/-- Modelled from the spec: the error kinds of the group layer. -/
inductive Error where
  | MalformedEncoding
  | PointNotOnCurve
  | LengthMismatch
deriving DecidableEq, Repr

/-- Adds the point `p` into the bucket at position `i`. -/
def G2.addToBucket (p : G) : List G → Nat → List G
  | [], _ => []
  | b :: bs, 0 => G2.Add b p :: bs
  | b :: bs, i + 1 => b :: G2.addToBucket p bs i

/-- One window of the bucket method: each point goes into the bucket indexed by
the digit of its scalar at window `j`; a zero digit selects no bucket. -/
def G2.fillBuckets (c j : Nat) : List G → List Nat → List G → List G
  | p :: ps, s :: ss, buckets =>
    let index := (s >>> (c * j)) % 2 ^ c
    let buckets := if index = 0 then buckets else G2.addToBucket p buckets (index - 1)
    G2.fillBuckets c j ps ss buckets
  | _, _, buckets => buckets

/-- The running-sum pass over the buckets, from the highest bucket down: `sum`
collects the buckets seen so far and `acc` collects the successive sums. -/
def G2.combineBuckets (buckets : List G) : G :=
  (buckets.foldr
    (fun b (st : G × G) => (G2.Add st.1 b, G2.Add st.2 (G2.Add st.1 b)))
    ((G2.Zero : G), (G2.Zero : G))).2

/-- The window loop, from the most significant of `j` windows to the least: the
accumulator is doubled `c` times and the sum of the window is added. -/
def G2.windowsLoop (c : Nat) (points : List G) (scalars : List Nat) : Nat → G → G
  | 0, acc => acc
  | j + 1, acc =>
    let acc := G2.Double^[c] acc
    let buckets := G2.fillBuckets c j points scalars (List.replicate (2 ^ c - 1) G2.Zero)
    let acc := G2.Add acc (G2.combineBuckets buckets)
    G2.windowsLoop c points scalars j acc

/-- Modelled from the spec: `G2.MultiExp`, declared outside src; the bucket method
with windows of `c` bits, over as many windows as the longest scalar has. -/
def G2.MultiExp (c : Nat) (points : List G) (scalars : List Nat) : Except Error G :=
  if points.length ≠ scalars.length then Except.error Error.LengthMismatch
  else
    let numWindows := bitLen (scalars.foldl max 0) / c + 1
    Except.ok (G2.windowsLoop c points scalars numWindows G2.Zero)

/-- The naive sum of the contract: `MulScalar(points[i], scalars[i])` accumulated
with `Add`, starting from `acc`. -/
def G2.naiveSum : List G → List Nat → G → G
  | p :: ps, s :: ss, acc => G2.naiveSum ps ss (G2.Add acc (G2.MulScalar p s))
  | _, _, acc => acc

/-- The linear combination of the points with the weights `f s`. -/
def linComb (f : Nat → Nat) : List G → List Nat → G
  | p :: ps, s :: ss => f s • p + linComb f ps ss
  | _, _ => 0

/-- The sum of the buckets, the bucket at position `i` weighted by `k + i + 1`. -/
def weightedSum (k : Nat) : List G → G
  | [] => 0
  | b :: bs => (k + 1) • b + weightedSum (k + 1) bs

end GroupModel

/-! ## Windowed and GLV-accelerated multiplication -/

section WnafModel
variable {G : Type} [AddCommGroup G]

/-- The table `cur, cur + step, cur + 2 step, ...` of `n` points. -/
def G2.tableFrom (step : G) : Nat → G → List G
  | 0, _ => []
  | n + 1, cur => cur :: G2.tableFrom step n (G2.Add cur step)

/-- The precomputed table of the odd multiples `P, 3P, 5P, ...` of a point, one
entry per odd digit magnitude below `2^(w-1)`. -/
def G2.oddMultiples (w : Nat) (p : G) : List G :=
  G2.tableFrom (G2.Double p) (2 ^ (w - 2)) p

/-- The signed table lookup for one digit: nothing for the digit zero, the
entry `|d| >> 1` for a positive digit, its negation for a negative one. -/
def G2.lookup (table : List G) (d : Int) : G :=
  if d = 0 then G2.Zero
  else if 0 < d then table.getD (d.natAbs / 2) G2.Zero
  else G2.Neg (table.getD (d.natAbs / 2) G2.Zero)

/-- Evaluation of one digit sequence, from the most significant digit down: the
accumulator is doubled and the looked-up point of the digit is added. -/
def G2.wnafEval (table : List G) : nafNumber → G
  | [] => G2.Zero
  | d :: ds => G2.Add (G2.Double (G2.wnafEval table ds)) (G2.lookup table d)

/-- Simultaneous evaluation of two digit sequences over two tables, sharing the
doublings. -/
def G2.wnafEval2 (table1 table2 : List G) : nafNumber → nafNumber → G
  | [], [] => G2.Zero
  | d :: ds, [] =>
    G2.Add (G2.Double (G2.wnafEval2 table1 table2 ds [])) (G2.lookup table1 d)
  | [], e :: es =>
    G2.Add (G2.Double (G2.wnafEval2 table1 table2 [] es)) (G2.lookup table2 e)
  | d :: ds, e :: es =>
    G2.Add (G2.Add (G2.Double (G2.wnafEval2 table1 table2 ds es)) (G2.lookup table1 d))
      (G2.lookup table2 e)

/-- Modelled from the spec: `G2.wnafMul`, declared outside src; a table of odd
multiples of the point, the windowed non-adjacent form of the scalar, and
repeated doubling with signed table lookups. -/
def G2.wnafMul (w : Nat) (p : G) (e : Int) : G :=
  G2.wnafEval (G2.oddMultiples w p) (bigToWNAF e w)

/-- Modelled from the spec: the GLV-accelerated multiplication, declared outside
src; the scalar is decomposed by `glvVectorBig.new`, the two digit sequences come
from `glvVectorBig.wnaf`, and they are evaluated simultaneously over the odd
multiples of the point and of its image under the endomorphism `phi`. -/
def G2.glvMul (w : Nat) (phi : G → G) (p : G) (e : Int) : G :=
  let v := glvVectorBig.fresh.new e
  let nafs := v.wnaf w
  G2.wnafEval2 (G2.oddMultiples w p) (G2.oddMultiples w (phi p)) nafs.1 nafs.2

end WnafModel

/-! ## Further inputs and constants -/

/-- A receiver of `glvVectorFr.new` that was used before: both flags are raised. -/
def staleReceiver : glvVectorFr :=
  { k1 := ⟨0, 0, 0, 0⟩, k2 := ⟨0, 0, 0, 0⟩, neg1 := true, neg2 := true }

/-! ## Base-field constants -/

/-- Modelled from the spec: the type `fe`, declared outside glv.go; a base-field
element held in six 64-bit words, least significant word first, in the
Montgomery representation of the library. -/
structure fe where
  w0 : Nat
  w1 : Nat
  w2 : Nat
  w3 : Nat
  w4 : Nat
  w5 : Nat
deriving DecidableEq, Repr

/-- The integer the six words denote (words read little-endian). -/
def fe.toNat (a : fe) : Nat :=
  a.w0 + 2 ^ 64 * (a.w1 + 2 ^ 64 * (a.w2 + 2 ^ 64 * (a.w3 + 2 ^ 64 * (a.w4 + 2 ^ 64 * a.w5))))

/-- Modelled from the spec: the base prime `p` of BLS12-377, declared outside
glv.go. -/
def modulus : Nat :=
  0x01ae3a4617c510eac63b05c06ca1493b1a22d9f300f5138f1ef3622fba094800170b5d44300000008508c00000000001

/-- The inverse of the Montgomery radix `2^384` modulo `p`. -/
def montgomeryInverse : Nat :=
  0x14212fc436b0736eb89746ca4c49351eeaaf41df7f2e657852e3c88a5582c936e20bbcde65839f5ef129093451269e8

/-- The residue a Montgomery-form element stands for: `limbs * 2^(-384) mod p`. -/
def fe.value (a : fe) : Nat :=
  a.toNat * montgomeryInverse % modulus

/-- The constant `glvPhi1` of glv.go. -/
def glvPhi1 : fe :=
  ⟨0xdacd106da5847973, 0xd8fe2454bac2a79a, 0x1ada4fd6fd832edc, 0xfb9868449d150908,
    0xd63eb8aeea32285e, 0x167d6a36f873fd0⟩

/-- The constant `glvPhi2` of glv.go. -/
def glvPhi2 : fe :=
  ⟨0x2c766f925a7b8727, 0x03d7f6b0253d58b5, 0x838ec0deec122131, 0xbd5eb3e9f658bb10,
    0x6942bd126ed3e52e, 0x01673786dd04ed6a⟩

/-! ## Curve membership -/

section CurveModel

variable {F : Type} [Field F] [DecidableEq F]

/-- Modelled from the spec: `fp2.add`, declared outside glv.go; addition of
`a0 + a1 u` and `b0 + b1 u`. -/
def fp2.add (_e : fp2 F) (a b : fe2 F) : fe2 F :=
  ⟨a.c0 + b.c0, a.c1 + b.c1⟩

/-- Modelled from the spec: `G2.IsOnCurve`, declared outside glv.go; the
projective curve equation `Y^2 = X^3 + b Z^6` (the coefficient `a` is zero), which
the identity satisfies trivially. -/
def G2.IsOnCurve (g : G2 F) (b : fe2 F) (p : PointG2 F) : Bool :=
  if g.IsZero p then true
  else
    let y2 := g.f.square p.y
    let x3 := g.f.mul (g.f.square p.x) p.x
    let z2 := g.f.square p.z
    let z6 := g.f.mul (g.f.square z2) z2
    decide (y2 = g.f.add x3 (g.f.mul b z6))

/-- The commutative ring that the operations of the context `e` put on the
pairs `c0 + c1 u`; it lets ring identities of the extension be checked by
normalisation. -/
def fe2.commRing (e : fp2 F) : CommRing (fe2 F) :=
  letI : Add (fe2 F) := ⟨e.add⟩
  letI : Mul (fe2 F) := ⟨e.mul⟩
  letI : Neg (fe2 F) := ⟨fun a => ⟨-a.c0, -a.c1⟩⟩
  letI : Zero (fe2 F) := ⟨fe2.zero⟩
  letI : One (fe2 F) := ⟨fe2.one⟩
  CommRing.ofMinimalAxioms
    (fun a b c => by
      show e.add (e.add a b) c = e.add a (e.add b c)
      simp only [fp2.add, add_assoc])
    (fun a => by
      show e.add fe2.zero a = a
      simp [fp2.add, fe2.zero])
    (fun a => by
      show e.add ⟨-a.c0, -a.c1⟩ a = fe2.zero
      simp [fp2.add, fe2.zero])
    (fun a b c => by
      show e.mul (e.mul a b) c = e.mul a (e.mul b c)
      simp only [fp2.mul, fe2.mk.injEq]
      constructor <;> ring)
    (fun a b => by
      show e.mul a b = e.mul b a
      simp only [fp2.mul, fe2.mk.injEq]
      constructor <;> ring)
    (fun a => by
      show e.mul fe2.one a = a
      simp [fp2.mul, fe2.one])
    (fun a b c => by
      show e.mul a (e.add b c) = e.add (e.mul a b) (e.mul a c)
      simp only [fp2.add, fp2.mul, fe2.mk.injEq]
      constructor <;> ring)

end CurveModel

/-- The prime `7`, for the field with seven elements used as a test field. -/
instance fact_prime_seven : Fact (Nat.Prime 7) := ⟨by norm_num⟩

/-! # Theorems -/

/-! ## Arithmetic of the constants -/

theorem glvB1Big_eq_lambda : glvB1Big = glvLambdaBig := rfl

theorem glvB2Big_eq_lambda_succ : glvB2Big = glvLambdaBig + 1 := by
  norm_num [glvB2Big, glvLambdaBig]

theorem qBig_eq_lambda : qBig = glvLambdaBig * glvLambdaBig + glvLambdaBig + 1 := by
  norm_num [qBig, glvLambdaBig]

theorem qBig_eq_B2 : qBig = glvB2Big * glvB2Big - glvB2Big + 1 := by
  norm_num [qBig, glvB2Big]

/-- The rounded quotient `(x + 2^255) >> 256` brackets `x + 2^255` between two
consecutive multiples of `2^256`. -/
theorem rsh_bracket (x : Int) :
    2 ^ 256 * ((x + halfRBig) >>> fourWordBitSize) ≤ x + 2 ^ 255 ∧
      x + 2 ^ 255 < 2 ^ 256 * ((x + halfRBig) >>> fourWordBitSize) + 2 ^ 256 := by
  rw [Int.shiftRight_eq_div_pow]
  have h1 := Int.emod_add_ediv (x + halfRBig) (2 ^ fourWordBitSize)
  have h2 := Int.emod_nonneg (x + halfRBig) (b := 2 ^ fourWordBitSize) (by positivity)
  have h3 := Int.emod_lt_of_pos (x + halfRBig) (b := 2 ^ fourWordBitSize) (by positivity)
  simp only [halfRBig, fourWordBitSize] at *
  norm_num at *
  constructor <;> linarith

/-- The lattice identity behind the decomposition: whatever the two rounded
quotients are, `k1 - k2 * lambda` is congruent to `m` modulo `q`. -/
theorem lattice_identity (m a1 a2 : Int) :
    (m - (a1 * glvB1Big) % qBig - a2) - ((a2 * glvB2Big) % qBig - a1) * glvLambdaBig
      ≡ m [ZMOD qBig] := by
  rw [Int.modEq_iff_dvd]
  refine ⟨a2 - (a1 * glvB1Big) / qBig - (a2 * glvB2Big) / qBig * glvLambdaBig, ?_⟩
  rw [Int.emod_def, Int.emod_def, glvB1Big_eq_lambda, glvB2Big_eq_lambda_succ]
  generalize (a1 * glvLambdaBig) / qBig = t1
  generalize (a2 * (glvLambdaBig + 1)) / qBig = t2
  rw [qBig_eq_lambda]
  ring

/-- The first rounded quotient of a scalar below `q` lies in `[0, B2]`. -/
theorem alpha1_range (m a : Int) (h0 : 0 ≤ m) (h1 : m < qBig)
    (ha : 2 ^ 256 * a ≤ m * glvQ1Big + 2 ^ 255)
    (hb : m * glvQ1Big + 2 ^ 255 < 2 ^ 256 * a + 2 ^ 256) :
    0 ≤ a ∧ a ≤ glvB2Big := by
  simp only [glvQ1Big, qBig, glvB2Big] at *
  norm_num at *
  omega

/-- The second rounded quotient of a scalar below `q` is `0` or `1`, for either
multiplier `13` or `14`. -/
theorem alpha2_range (m a Q : Int) (h0 : 0 ≤ m) (h1 : m < qBig) (hQ : Q = 13 ∨ Q = 14)
    (ha : 2 ^ 256 * a ≤ m * Q + 2 ^ 255)
    (hb : m * Q + 2 ^ 255 < 2 ^ 256 * a + 2 ^ 256) :
    0 ≤ a ∧ a ≤ 1 := by
  simp only [qBig] at *
  norm_num at *
  rcases hQ with rfl | rfl <;> omega

/-- Integer bound on the first half: `|m - alpha1 * B1 - alpha2| < 2^128`. -/
theorem k1_int_bound (m a a2 : Int) (h0 : 0 ≤ m) (h1 : m < qBig)
    (ha : 2 ^ 256 * a ≤ m * glvQ1Big + 2 ^ 255)
    (hb : m * glvQ1Big + 2 ^ 255 < 2 ^ 256 * a + 2 ^ 256)
    (h2 : 0 ≤ a2) (h3 : a2 ≤ 1) :
    -2 ^ 128 < m - a * glvB1Big - a2 ∧ m - a * glvB1Big - a2 < 2 ^ 128 := by
  simp only [glvQ1Big, qBig, glvB1Big] at *
  norm_num at *
  omega

/-- Integer bound on the second half: `|alpha2 * B2 - alpha1| < 2^128`. -/
theorem k2_int_bound (a a2 : Int) (h0 : 0 ≤ a) (h1 : a ≤ glvB2Big)
    (h2 : 0 ≤ a2) (h3 : a2 ≤ 1) :
    -2 ^ 128 < a2 * glvB2Big - a ∧ a2 * glvB2Big - a < 2 ^ 128 := by
  simp only [glvB2Big] at *
  norm_num at *
  have : a2 = 0 ∨ a2 = 1 := by omega
  rcases this with rfl | rfl <;> omega

/-- Neither product of the decomposition reaches the modulus. -/
theorem z_exact (a a2 : Int) (h0 : 0 ≤ a) (h1 : a ≤ glvB2Big)
    (h2 : 0 ≤ a2) (h3 : a2 ≤ 1) :
    (a * glvB1Big) % qBig = a * glvB1Big ∧ (a2 * glvB2Big) % qBig = a2 * glvB2Big := by
  constructor
  · apply Int.emod_eq_of_lt
    · simp only [glvB1Big] at *; omega
    · simp only [glvB1Big, glvB2Big, qBig] at *; omega
  · apply Int.emod_eq_of_lt
    · simp only [glvB2Big] at *; omega
    · simp only [glvB2Big, qBig] at *
      have : a2 = 0 ∨ a2 = 1 := by omega
      rcases this with rfl | rfl <;> omega

/-- C1 (amended): for every integer `m` with `0 <= m < q`, the pair `(k1, k2)` computed by
`glvVectorBig.new` satisfies `m ≡ k1 - k2 * lambda (mod q)`. -/
theorem glvVectorBig_new_congr (v : glvVectorBig) (m : Int) (_h0 : 0 ≤ m) (_h1 : m < qBig) :
    m ≡ (v.new m).k1 - (v.new m).k2 * glvLambdaBig [ZMOD qBig] :=
  (lattice_identity m _ _).symm

/-- C1 witness: the amended congruence at `m = 2^126`. -/
theorem glvVectorBig_new_congr_witness :
    (0 : Int) ≤ 2 ^ 126 ∧ (2 ^ 126 : Int) < qBig ∧
      (2 ^ 126 : Int) ≡ (glvVectorBig.fresh.new (2 ^ 126)).k1
        - (glvVectorBig.fresh.new (2 ^ 126)).k2 * glvLambdaBig [ZMOD qBig] :=
  ⟨by norm_num, by norm_num [qBig],
    glvVectorBig_new_congr glvVectorBig.fresh (2 ^ 126) (by norm_num) (by norm_num [qBig])⟩

set_option maxRecDepth 100000 in
/-- C1 counterexample: at `m = 2^126`, which lies in `[0, q)`, the decomposition is
`(k1, k2) = (2^126 - lambda, -1)` and the sum `k1 + k2 * lambda` is not congruent
to `m` modulo `q`. -/
theorem glvVectorBig_new_plus_fails :
    (0 : Int) ≤ 2 ^ 126 ∧ (2 ^ 126 : Int) < qBig ∧
      glvVectorBig.fresh.new (2 ^ 126) = ⟨2 ^ 126 - glvLambdaBig, -1⟩ ∧
      ¬ ((2 ^ 126 : Int) ≡ (glvVectorBig.fresh.new (2 ^ 126)).k1
          + (glvVectorBig.fresh.new (2 ^ 126)).k2 * glvLambdaBig [ZMOD qBig]) := by
  decide

/-- C2: for every integer `m` with `0 <= m < q`, both halves computed by
`glvVectorBig.new` are below `2^128` in absolute value. -/
theorem glvVectorBig_new_half_size (v : glvVectorBig) (m : Int) (h0 : 0 ≤ m) (h1 : m < qBig) :
    |(v.new m).k1| < 2 ^ 128 ∧ |(v.new m).k2| < 2 ^ 128 := by
  obtain ⟨ha, hb⟩ := rsh_bracket (m * glvQ1Big)
  obtain ⟨hc, hd⟩ := rsh_bracket (m * glvQ2Big)
  obtain ⟨r1, r2⟩ := alpha1_range m _ h0 h1 ha hb
  obtain ⟨r3, r4⟩ := alpha2_range m _ glvQ2Big h0 h1 (Or.inr rfl) hc hd
  obtain ⟨e1, e2⟩ := z_exact _ _ r1 r2 r3 r4
  obtain ⟨b1, b2⟩ := k1_int_bound m _ _ h0 h1 ha hb r3 r4
  obtain ⟨b3, b4⟩ := k2_int_bound _ _ r1 r2 r3 r4
  simp only [glvVectorBig.new, e1, e2, abs_lt]
  exact ⟨⟨b1, b2⟩, ⟨b3, b4⟩⟩

/-- C2 witness: the bound at `m = q - 1`. -/
theorem glvVectorBig_new_half_size_witness :
    (0 : Int) ≤ qBig - 1 ∧ qBig - 1 < qBig ∧
      |(glvVectorBig.fresh.new (qBig - 1)).k1| < 2 ^ 128
      ∧ |(glvVectorBig.fresh.new (qBig - 1)).k2| < 2 ^ 128 :=
  ⟨by norm_num [qBig], by norm_num,
    glvVectorBig_new_half_size glvVectorBig.fresh (qBig - 1) (by norm_num [qBig]) (by norm_num)⟩

/-! ## The four-word decomposition -/

theorem Fr.toNat_ofNat (n : Nat) : (Fr.ofNat n).toNat = n % 2 ^ 256 := by
  simp only [Fr.ofNat, Fr.toNat]
  omega

theorem qBig_pos : 0 < qBig := by norm_num [qBig]

theorem qBig_lt : qBig < 2 ^ 256 := by norm_num [qBig]

/-- A residue modulo `q` survives the trip through four words. -/
theorem Fr.toNat_ofNat_emod (x : Int) :
    ((Fr.ofNat (x % qBig).toNat).toNat : Int) = x % qBig := by
  have h1 := Int.emod_nonneg x (ne_of_gt qBig_pos)
  have h2 := Int.emod_lt_of_pos x qBig_pos
  have h3 := qBig_lt
  rw [Fr.toNat_ofNat]
  generalize x % qBig = r at *
  norm_num at h3
  omega

theorem Fr.Mul_toNat (a b : Fr) :
    ((Fr.Mul a b).toNat : Int) = ((a.toNat : Int) * (b.toNat : Int)) % qBig :=
  Fr.toNat_ofNat_emod _

theorem Fr.Sub_toNat (a b : Fr) :
    ((Fr.Sub a b).toNat : Int) = ((a.toNat : Int) - (b.toNat : Int)) % qBig :=
  Fr.toNat_ofNat_emod _

theorem Fr.Neg_toNat (a : Fr) :
    ((Fr.Neg a).toNat : Int) = (-(a.toNat : Int)) % qBig :=
  Fr.toNat_ofNat_emod _

theorem r128_toNat : r128.toNat = 2 ^ 128 - 1 := by
  norm_num [r128, Fr.toNat]

theorem glvQ1_toNat : (glvQ1.toNat : Int) = glvQ1Big := by
  norm_num [glvQ1, Fr.toNat, glvQ1Big]

theorem glvQ2_toNat : (glvQ2.toNat : Int) = 13 := by
  norm_num [glvQ2, Fr.toNat]

theorem glvB1_toNat : (glvB1.toNat : Int) = glvB1Big := by
  norm_num [glvB1, Fr.toNat, glvB1Big]

theorem glvB2_toNat : (glvB2.toNat : Int) = glvB2Big := by
  norm_num [glvB2, Fr.toNat, glvB2Big]

theorem Fr.Cmp_eq_one (a b : Fr) : Fr.Cmp a b = 1 ↔ b.toNat < a.toNat := by
  unfold Fr.Cmp
  split_ifs <;> simp_all

/-- The rounded quotient formed by `wideFr.round` for a scalar below `q` and a
multiplier below `2^131`, as an integer shift. -/
theorem round_toNat (m c : Fr) (h : (m.toNat : Int) < qBig) (hc : c.toNat < 2 ^ 131) :
    (((wideFr.mul m c).round).toNat : Int)
      = ((m.toNat : Int) * (c.toNat : Int) + halfRBig) >>> fourWordBitSize := by
  rw [Int.shiftRight_eq_div_pow]
  simp only [wideFr.round, wideFr.mul, Fr.toNat_ofNat, halfRBig, fourWordBitSize]
  have hm : m.toNat < 2 ^ 253 := by
    have : qBig < 2 ^ 253 := by norm_num [qBig]
    omega
  have hp : m.toNat * c.toNat < 2 ^ 253 * 2 ^ 131 := Nat.mul_lt_mul_of_lt_of_le hm (Nat.le_of_lt hc) (by norm_num)
  have e : ((m.toNat : Int) * (c.toNat : Int)) = ((m.toNat * c.toNat : Nat) : Int) := by
    push_cast; rfl
  rw [e]
  generalize m.toNat * c.toNat = p at *
  norm_num at hp ⊢
  omega

theorem alpha1_toNat (m : Fr) (h : (m.toNat : Int) < qBig) :
    ((alpha1 m).toNat : Int) = ((m.toNat : Int) * glvQ1Big + halfRBig) >>> fourWordBitSize := by
  rw [← glvQ1_toNat]
  exact round_toNat m glvQ1 h (by norm_num [glvQ1, Fr.toNat])

theorem alpha2_toNat (m : Fr) (h : (m.toNat : Int) < qBig) :
    ((alpha2 m).toNat : Int) = ((m.toNat : Int) * 13 + halfRBig) >>> fourWordBitSize := by
  rw [← glvQ2_toNat]
  exact round_toNat m glvQ2 h (by norm_num [glvQ2, Fr.toNat])

/-- Sign normalisation of one component: a residue of an integer `K` with
`|K| < 2^128` is replaced by `|K|`, and it is negated exactly when `K < 0`. -/
theorem normalise_component (k : Fr) (K : Int) (hk : (k.toNat : Int) = K % qBig)
    (hlo : -2 ^ 128 < K) (hhi : K < 2 ^ 128) :
    (Fr.Cmp k r128 = 1 ↔ K < 0) ∧
      ((if decide (Fr.Cmp k r128 = 1) then Fr.Neg k else k).toNat : Int) = |K| := by
  have hcmp : Fr.Cmp k r128 = 1 ↔ K < 0 := by
    rw [Fr.Cmp_eq_one, r128_toNat]
    simp only [qBig] at hk
    norm_num at hlo hhi ⊢
    omega
  refine ⟨hcmp, ?_⟩
  by_cases hK : K < 0
  · have hn := Fr.Neg_toNat k
    rw [if_pos (by simpa using hcmp.2 hK), hn, hk, abs_of_neg hK]
    simp only [qBig]
    norm_num at hlo hhi ⊢
    omega
  · have hc : ¬ Fr.Cmp k r128 = 1 := fun h => hK (hcmp.1 h)
    rw [if_neg (by simpa using hc), hk, abs_of_nonneg (not_lt.1 hK)]
    simp only [qBig]
    norm_num at hlo hhi ⊢
    omega

theorem frK_bounds (m : Fr) (h : (m.toNat : Int) < qBig) :
    (-2 ^ 128 < frK1 m ∧ frK1 m < 2 ^ 128) ∧ (-2 ^ 128 < frK2 m ∧ frK2 m < 2 ^ 128) := by
  have h0 : (0 : Int) ≤ m.toNat := Int.ofNat_nonneg _
  obtain ⟨ha, hb⟩ := rsh_bracket ((m.toNat : Int) * glvQ1Big)
  obtain ⟨hc, hd⟩ := rsh_bracket ((m.toNat : Int) * 13)
  obtain ⟨r1, r2⟩ := alpha1_range _ _ h0 h ha hb
  obtain ⟨r3, r4⟩ := alpha2_range _ _ 13 h0 h (Or.inl rfl) hc hd
  simp only [frK1, frK2, glvQ1_toNat, glvQ2_toNat, glvB1_toNat, glvB2_toNat]
  exact ⟨k1_int_bound _ _ _ h0 h ha hb r3 r4, k2_int_bound _ _ r1 r2 r3 r4⟩

/-- The residues held by `glvVectorFr.new` before sign normalisation. -/
theorem fr_residues (m : Fr) (h : (m.toNat : Int) < qBig) :
    ((Fr.Sub (Fr.Sub m (Fr.Mul (alpha1 m) glvB1)) (alpha2 m)).toNat : Int) = frK1 m % qBig ∧
      ((Fr.Sub (Fr.Mul (alpha2 m) glvB2) (alpha1 m)).toNat : Int) = frK2 m % qBig := by
  simp only [Fr.Sub_toNat, Fr.Mul_toNat, alpha1_toNat m h, alpha2_toNat m h, glvB1_toNat,
    glvB2_toNat, glvQ1_toNat, glvQ2_toNat, frK1, frK2]
  constructor
  · exact (((Int.mod_modEq _ _).trans ((Int.ModEq.refl _).sub (Int.mod_modEq _ _))).sub_right _)
  · exact ((Int.mod_modEq _ _).sub_right _)

/-- What `glvVectorFr.new` stores for a scalar below `q`: the magnitudes of the
two integer halves, and a flag raised exactly when the half is negative (a flag
that is already raised on the receiver stays raised). -/
theorem glvVectorFr_new_spec (v : glvVectorFr) (m : Fr) (h : (m.toNat : Int) < qBig) :
    ((v.new m).k1.toNat : Int) = |frK1 m| ∧ ((v.new m).k2.toNat : Int) = |frK2 m| ∧
      (v.new m).neg1 = (decide (frK1 m < 0) || v.neg1) ∧
      (v.new m).neg2 = (decide (frK2 m < 0) || v.neg2) := by
  obtain ⟨e1, e2⟩ := fr_residues m h
  obtain ⟨⟨l1, u1⟩, ⟨l2, u2⟩⟩ := frK_bounds m h
  obtain ⟨c1, n1⟩ := normalise_component _ _ e1 l1 u1
  obtain ⟨c2, n2⟩ := normalise_component _ _ e2 l2 u2
  refine ⟨n1, n2, ?_, ?_⟩
  · simp only [glvVectorFr.new]
    by_cases hK : frK1 m < 0
    · simp [c1.2 hK, hK]
    · have : ¬ Fr.Cmp (Fr.Sub (Fr.Sub m (Fr.Mul (alpha1 m) glvB1)) (alpha2 m)) r128 = 1 :=
        fun hc => hK (c1.1 hc)
      simp [this, hK]
  · simp only [glvVectorFr.new]
    by_cases hK : frK2 m < 0
    · simp [c2.2 hK, hK]
    · have : ¬ Fr.Cmp (Fr.Sub (Fr.Mul (alpha2 m) glvB2) (alpha1 m)) r128 = 1 :=
        fun hc => hK (c2.1 hc)
      simp [this, hK]

/-- C4: for every scalar `m` below `q`, both magnitudes stored by
`glvVectorFr.new` are at most `2^128 - 1`. -/
theorem glvVectorFr_new_half_size (v : glvVectorFr) (m : Fr) (h : (m.toNat : Int) < qBig) :
    (v.new m).k1.toNat ≤ 2 ^ 128 - 1 ∧ (v.new m).k2.toNat ≤ 2 ^ 128 - 1 := by
  obtain ⟨e1, e2, -, -⟩ := glvVectorFr_new_spec v m h
  obtain ⟨⟨l1, u1⟩, ⟨l2, u2⟩⟩ := frK_bounds m h
  have a1 : |frK1 m| < 2 ^ 128 := abs_lt.2 ⟨l1, u1⟩
  have a2 : |frK2 m| < 2 ^ 128 := abs_lt.2 ⟨l2, u2⟩
  rw [← e1] at a1
  rw [← e2] at a2
  norm_num at a1 a2 ⊢
  omega

/-- C4 witness: the bound at the scalar with words `1, 2, 3, 4`. -/
theorem glvVectorFr_new_half_size_witness :
    (((⟨1, 2, 3, 4⟩ : Fr).toNat : Int) < qBig) ∧
      (glvVectorFr.fresh.new ⟨1, 2, 3, 4⟩).k1.toNat ≤ 2 ^ 128 - 1 ∧
      (glvVectorFr.fresh.new ⟨1, 2, 3, 4⟩).k2.toNat ≤ 2 ^ 128 - 1 :=
  ⟨by norm_num [Fr.toNat, qBig],
    glvVectorFr_new_half_size glvVectorFr.fresh ⟨1, 2, 3, 4⟩ (by norm_num [Fr.toNat, qBig])⟩

set_option maxRecDepth 100000 in
/-- C3 (failing input): at the scalar `ceil(2^255 / 14)`, which is below `q`, the
four-word decomposition (multiplier `glvQ2 = 13`) and the arbitrary-precision
decomposition (multiplier `glvQ2Big = 14`) disagree in both magnitudes and in the
second sign. -/
theorem glvVectorFr_new_differs_from_Big :
    ((divergingScalar.toNat : Int) < qBig) ∧
      glvVectorFr.fresh.new divergingScalar
        = ⟨Fr.ofNat 38724059473660519562028952729137559259,
            Fr.ofNat 45002316759846220260885401434441271810, true, true⟩ ∧
      glvVectorBig.fresh.new divergingScalar.toNat
        = ⟨-38724059473660519562028952729137559260,
            46891435745035037440637878192391173631⟩ ∧
      ((glvVectorFr.fresh.new divergingScalar).k1.toNat : Int)
        ≠ |(glvVectorBig.fresh.new divergingScalar.toNat).k1| ∧
      ((glvVectorFr.fresh.new divergingScalar).k2.toNat : Int)
        ≠ |(glvVectorBig.fresh.new divergingScalar.toNat).k2| ∧
      (glvVectorFr.fresh.new divergingScalar).neg2
        ≠ decide ((glvVectorBig.fresh.new divergingScalar.toNat).k2 < 0) := by
  decide

section G2Thm

variable {F : Type} [Field F]

/-- Inversion in the extension distributes over products. -/
theorem fp2.inverse_mul (e : fp2 F) (a b : fe2 F) :
    e.inverse (e.mul a b) = e.mul (e.inverse a) (e.inverse b) := by
  have hN : (a.c0 * b.c0 + e.nonResidue * (a.c1 * b.c1)) * (a.c0 * b.c0 + e.nonResidue * (a.c1 * b.c1))
      - e.nonResidue * ((a.c0 * b.c1 + a.c1 * b.c0) * (a.c0 * b.c1 + a.c1 * b.c0))
      = (a.c0 * a.c0 - e.nonResidue * (a.c1 * a.c1)) * (b.c0 * b.c0 - e.nonResidue * (b.c1 * b.c1)) := by
    ring
  simp only [fp2.inverse, fp2.mul, hN, mul_inv]
  congr 1 <;> ring

/-- C5: `G2.glvEndomorphism` writes the image of `p` under the reference map,
whatever the destination held before. -/
theorem glvEndomorphism_eq_phiReference [DecidableEq F] (g : G2 F) (glvPhi2 : F) (r p : PointG2 F) :
    g.glvEndomorphism glvPhi2 r p = phiReference g glvPhi2 p := by
  unfold G2.glvEndomorphism phiReference
  by_cases hz : p.z = fe2.zero
  · simp [G2.IsZero, hz, PointG2.Zero]
  · have h2 : g.f.inverse (g.f.square p.z) = g.f.square (g.f.inverse p.z) := by
      simp only [fp2.square, fp2.inverse_mul]
    have h3 : g.f.inverse (g.f.mul (g.f.square p.z) p.z)
        = g.f.mul (g.f.inverse p.z) (g.f.square (g.f.inverse p.z)) := by
      simp only [fp2.square, fp2.inverse_mul]
      simp only [fp2.mul]
      congr 1 <;> ring
    simp only [G2.IsZero, hz, decide_False, Bool.false_eq_true, if_false, G2.Affine, h2, h3,
      fp2.phi, bls12377.mul]
    congr 1
    congr 1 <;> ring

end G2Thm

/-! ## Signed-digit sequences -/

theorem nafNumber.eval_neg (n : nafNumber) : (nafNumber.neg n).eval = -n.eval := by
  induction n with
  | nil => simp [nafNumber.neg, nafNumber.eval]
  | cons d ds ih =>
    simp only [nafNumber.neg, List.map_cons, nafNumber.eval] at ih ⊢
    rw [ih]
    ring

theorem validDigit_neg (w : Nat) (d : Int) (h : validDigit w d) : validDigit w (-d) := by
  rcases h with rfl | ⟨h1, h2, h3⟩
  · left; simp
  · right
    refine ⟨by omega, by omega, by omega⟩

theorem nafNumber.valid_neg (w : Nat) (n : nafNumber) (h : ∀ d ∈ n, validDigit w d) :
    ∀ d ∈ nafNumber.neg n, validDigit w d := by
  intro d hd
  simp only [nafNumber.neg, List.mem_map] at hd
  obtain ⟨x, hx, rfl⟩ := hd
  exact validDigit_neg w x (h x hx)

/-- With a window of at least two bits and enough fuel, the recoding stands for
the scalar and all its digits are digits of the window. -/
theorem toWNAFAux_spec (w : Nat) (hw : 2 ≤ w) (fuel k : Nat) (hk : k ≤ fuel) :
    (toWNAFAux w fuel k).eval = k ∧ ∀ d ∈ toWNAFAux w fuel k, validDigit w d := by
  obtain ⟨U, hU, hP, hH, hPz, hHz⟩ : ∃ U : Nat, 0 < U ∧ (2 : Nat) ^ w = 4 * U ∧
      (2 : Nat) ^ (w - 1) = 2 * U ∧ (2 : Int) ^ w = 4 * (U : Int) ∧
      (2 : Int) ^ (w - 1) = 2 * (U : Int) := by
    obtain ⟨u, rfl⟩ : ∃ u, w = u + 2 := ⟨w - 2, by omega⟩
    refine ⟨2 ^ u, Nat.two_pow_pos u, ?_, ?_, ?_, ?_⟩
    · rw [pow_add]; ring
    · rw [show u + 2 - 1 = u + 1 by omega, pow_succ]; ring
    · push_cast; rw [pow_add]; ring
    · rw [show u + 2 - 1 = u + 1 by omega, pow_succ]; push_cast; ring
  induction fuel generalizing k with
  | zero =>
    have : k = 0 := by omega
    simp [this, toWNAFAux, nafNumber.eval]
  | succ fuel ih =>
    unfold toWNAFAux
    by_cases h0 : k = 0
    · simp [h0, nafNumber.eval]
    rw [if_neg h0]
    by_cases h1 : k % 2 = 1
    · rw [if_pos h1]
      have hr1 : k % 2 ^ w % 2 = 1 := by
        rw [Nat.mod_mod_of_dvd _ (dvd_pow_self 2 (by omega))]; exact h1
      have hr2 : k % 2 ^ w ≤ k := Nat.mod_le _ _
      have hr3 : k % 2 ^ w < 2 ^ w := Nat.mod_lt _ (by positivity)
      simp only [validDigit, hHz, hPz, hH, hP] at *
      generalize k % (4 * U) = r at *
      by_cases h2 : r < 2 * U
      · rw [if_pos h2]
        obtain ⟨e1, e2⟩ := ih ((k - r) / 2) (by omega)
        constructor
        · simp only [nafNumber.eval, e1]
          omega
        · intro d hd
          rcases List.mem_cons.1 hd with rfl | hd
          · right; omega
          · exact e2 d hd
      · rw [if_neg h2]
        obtain ⟨e1, e2⟩ := ih ((k + (4 * U - r)) / 2) (by omega)
        constructor
        · simp only [nafNumber.eval, e1]
          omega
        · intro d hd
          rcases List.mem_cons.1 hd with rfl | hd
          · right; omega
          · exact e2 d hd
    · rw [if_neg h1]
      obtain ⟨e1, e2⟩ := ih (k / 2) (by omega)
      constructor
      · simp only [nafNumber.eval, e1]
        omega
      · intro d hd
        rcases List.mem_cons.1 hd with rfl | hd
        · left; rfl
        · exact e2 d hd

/-! ## Group model for G2 -/

section GroupThm

variable {G : Type} [AddCommGroup G]

theorem lt_two_pow_bitLenAux (fuel e : Nat) (h : e ≤ fuel) : e < 2 ^ bitLenAux fuel e := by
  induction fuel generalizing e with
  | zero =>
    have : e = 0 := by omega
    simp [this, bitLenAux]
  | succ fuel ih =>
    unfold bitLenAux
    split_ifs with h0
    · simp [h0]
    · have := ih (e / 2) (by omega)
      rw [pow_succ]
      omega

theorem lt_two_pow_bitLen (e : Nat) : e < 2 ^ bitLen e :=
  lt_two_pow_bitLenAux e e (le_refl e)

/-- The ladder invariant: after the `i` low bits, the accumulator has been
doubled `i` times and the low part of the scalar has been added. -/
theorem G2.mulLadder_eq (a : G) (e i : Nat) (acc : G) :
    G2.mulLadder a e i acc = 2 ^ i • acc + (e % 2 ^ i) • a := by
  induction i generalizing acc with
  | zero => simp [G2.mulLadder, Nat.mod_one]
  | succ i ih =>
    simp only [G2.mulLadder, ih, G2.Double, G2.Add]
    have hmod : e % 2 ^ (i + 1) = e % 2 ^ i + 2 ^ i * (e / 2 ^ i % 2) := Nat.mod_pow_succ
    rw [hmod, Nat.testBit_to_div_mod]
    rcases Nat.mod_two_eq_zero_or_one (e / 2 ^ i) with h | h
    · simp [h, pow_succ, mul_smul, two_smul, smul_add]
    · simp [h, pow_succ, mul_smul, two_smul, smul_add, add_smul]
      abel

/-- Double-and-add computes the scalar multiple. -/
theorem G2.MulScalar_eq_nsmul (a : G) (e : Nat) : G2.MulScalar a e = e • a := by
  unfold G2.MulScalar
  rw [G2.mulLadder_eq, Nat.mod_eq_of_lt (lt_two_pow_bitLen e)]
  simp [G2.Zero]

/-- C10: naive scalar multiplication is compatible with the group law. -/
theorem G2.MulScalar_group_law (a : G) (s1 s2 : Nat) :
    G2.Add (G2.MulScalar a s1) (G2.MulScalar a s2) = G2.MulScalar a (s1 + s2) ∧
      G2.MulScalar (G2.MulScalar a s1) s2 = G2.MulScalar a (s1 * s2) ∧
      G2.MulScalar (G2.Zero : G) s1 = G2.Zero ∧
      G2.MulScalar a 1 = a := by
  simp only [G2.MulScalar_eq_nsmul, G2.Add, G2.Zero]
  refine ⟨(add_nsmul a s1 s2).symm, ?_, smul_zero s1, one_nsmul a⟩
  exact (mul_nsmul a s1 s2).symm

/-- C9: on a curve whose point group has `h * q` elements, clearing the cofactor
`h` lands in the subgroup of order `q`. -/
theorem G2.ClearCofactor_InCorrectSubgroup [DecidableEq G] (h : Nat)
    (hcard : Nat.card G = h * qBig.toNat) (p : G) :
    G2.InCorrectSubgroup (G2.ClearCofactor h p) = true := by
  simp only [G2.InCorrectSubgroup, G2.ClearCofactor, G2.MulScalar_eq_nsmul, G2.Zero,
    decide_eq_true_eq]
  rw [← mul_nsmul, ← hcard]
  exact card_nsmul_eq_zero'

/-! ### The bucket method -/

theorem G2.naiveSum_eq (ps : List G) (ss : List Nat) (acc : G) :
    G2.naiveSum ps ss acc = acc + linComb id ps ss := by
  induction ps generalizing ss acc with
  | nil => simp [G2.naiveSum, linComb]
  | cons p ps ih =>
    cases ss with
    | nil => simp [G2.naiveSum, linComb]
    | cons s ss =>
      simp only [G2.naiveSum, linComb, ih, G2.Add, G2.MulScalar_eq_nsmul, id]
      abel

theorem linComb_congr (f g : Nat → Nat) (ps : List G) (ss : List Nat)
    (h : ∀ s ∈ ss, f s = g s) : linComb f ps ss = linComb g ps ss := by
  induction ps generalizing ss with
  | nil => simp [linComb]
  | cons p ps ih =>
    cases ss with
    | nil => simp [linComb]
    | cons s ss =>
      simp only [linComb]
      rw [h s (List.mem_cons_self _ _), ih ss (fun t ht => h t (List.mem_cons_of_mem _ ht))]

theorem linComb_zero (ps : List G) (ss : List Nat) : linComb (fun _ => 0) ps ss = 0 := by
  induction ps generalizing ss with
  | nil => simp [linComb]
  | cons p ps ih =>
    cases ss with
    | nil => simp [linComb]
    | cons s ss => simp [linComb, ih]

theorem linComb_affine (a : Nat) (f g : Nat → Nat) (ps : List G) (ss : List Nat) :
    linComb (fun s => g s + a * f s) ps ss = linComb g ps ss + a • linComb f ps ss := by
  induction ps generalizing ss with
  | nil => simp [linComb]
  | cons p ps ih =>
    cases ss with
    | nil => simp [linComb]
    | cons s ss =>
      simp only [linComb, ih, add_smul, mul_smul, smul_add]
      abel

theorem G2.addToBucket_length (p : G) (bs : List G) (i : Nat) :
    (G2.addToBucket p bs i).length = bs.length := by
  induction bs generalizing i with
  | nil => simp [G2.addToBucket]
  | cons b bs ih =>
    cases i with
    | zero => simp [G2.addToBucket]
    | succ i => simp [G2.addToBucket, ih]

theorem weightedSum_addToBucket (p : G) (bs : List G) (i k : Nat) (h : i < bs.length) :
    weightedSum k (G2.addToBucket p bs i) = weightedSum k bs + (k + i + 1) • p := by
  induction bs generalizing i k with
  | nil => simp at h
  | cons b bs ih =>
    cases i with
    | zero =>
      simp only [G2.addToBucket, weightedSum, G2.Add, smul_add, add_zero]
      abel
    | succ i =>
      simp only [G2.addToBucket, weightedSum]
      rw [ih i (k + 1) (by simpa using h)]
      have : k + 1 + i + 1 = k + (i + 1) + 1 := by omega
      rw [this]
      abel

theorem weightedSum_replicate (n k : Nat) :
    weightedSum k (List.replicate n (G2.Zero : G)) = 0 := by
  induction n generalizing k with
  | zero => simp [weightedSum]
  | succ n ih =>
    simp only [List.replicate, weightedSum, ih]
    simp [G2.Zero]

theorem G2.combineBuckets_aux (bs : List G) :
    bs.foldr (fun b (st : G × G) => (G2.Add st.1 b, G2.Add st.2 (G2.Add st.1 b)))
        ((G2.Zero : G), (G2.Zero : G))
      = (bs.sum, weightedSum 0 bs) ∧ ∀ k, weightedSum (k + 1) bs = weightedSum k bs + bs.sum := by
  induction bs with
  | nil => simp [weightedSum, G2.Zero]
  | cons b bs ih =>
    obtain ⟨h1, h2⟩ := ih
    constructor
    · rw [List.foldr_cons, h1]
      simp only [G2.Add, List.sum_cons, weightedSum, h2 0, zero_add, one_smul, Prod.mk.injEq]
      constructor <;> abel
    · intro k
      simp only [weightedSum, List.sum_cons, h2 (k + 1), add_smul, one_smul]
      abel

theorem G2.combineBuckets_eq (bs : List G) : G2.combineBuckets bs = weightedSum 0 bs := by
  unfold G2.combineBuckets
  rw [(G2.combineBuckets_aux bs).1]

theorem G2.fillBuckets_spec (c j : Nat) (ps : List G) (ss : List Nat) (bs : List G)
    (hlen : bs.length = 2 ^ c - 1) :
    weightedSum 0 (G2.fillBuckets c j ps ss bs)
      = weightedSum 0 bs + linComb (fun s => (s >>> (c * j)) % 2 ^ c) ps ss := by
  induction ps generalizing ss bs with
  | nil => simp [G2.fillBuckets, linComb]
  | cons p ps ih =>
    cases ss with
    | nil => simp [G2.fillBuckets, linComb]
    | cons s ss =>
      simp only [G2.fillBuckets, linComb]
      have hpos : 0 < 2 ^ c := Nat.two_pow_pos c
      have hlt : (s >>> (c * j)) % 2 ^ c < 2 ^ c := Nat.mod_lt _ hpos
      split_ifs with h0
      · rw [ih ss bs hlen, h0]
        simp
      · rw [ih ss _ (by rw [G2.addToBucket_length]; exact hlen),
          weightedSum_addToBucket p bs _ 0 (by omega)]
        have : 0 + ((s >>> (c * j)) % 2 ^ c - 1) + 1 = (s >>> (c * j)) % 2 ^ c := by omega
        rw [this]
        abel

theorem G2.iterate_Double (c : Nat) (acc : G) : G2.Double^[c] acc = 2 ^ c • acc := by
  induction c generalizing acc with
  | zero => simp
  | succ c ih =>
    rw [Function.iterate_succ_apply, ih, G2.Double, pow_succ, mul_smul, two_smul, smul_add]

theorem G2.windowsLoop_eq (c : Nat) (ps : List G) (ss : List Nat) (j : Nat) (acc : G) :
    G2.windowsLoop c ps ss j acc
      = 2 ^ (c * j) • acc + linComb (fun s => s % 2 ^ (c * j)) ps ss := by
  induction j generalizing acc with
  | zero =>
    have h0 : linComb (fun s => s % 2 ^ (c * 0)) ps ss = linComb (fun _ => 0) ps ss :=
      linComb_congr _ _ ps ss (fun s _ => by simp [Nat.mod_one])
    rw [h0, linComb_zero]
    simp [G2.windowsLoop]
  | succ j ih =>
    have hsplit : linComb (fun s => s % 2 ^ (c * (j + 1))) ps ss
        = linComb (fun s => s % 2 ^ (c * j) + 2 ^ (c * j) * ((s >>> (c * j)) % 2 ^ c)) ps ss :=
      linComb_congr _ _ ps ss (fun s _ => by
        rw [Nat.mul_succ, pow_add, Nat.mod_mul, Nat.shiftRight_eq_div_pow])
    simp only [G2.windowsLoop]
    rw [ih, hsplit, linComb_affine, G2.iterate_Double, G2.combineBuckets_eq,
      G2.fillBuckets_spec c j ps ss _ (List.length_replicate _ _), weightedSum_replicate,
      G2.Add, Nat.mul_succ, pow_add, mul_smul, smul_add, zero_add]
    abel

/-- Every scalar of the list fits in the windows that `MultiExp` walks. -/
theorem scalar_lt_windows (c : Nat) (hc : 0 < c) (ss : List Nat) (s : Nat) (hs : s ∈ ss) :
    s < 2 ^ (c * (bitLen (ss.foldl max 0) / c + 1)) := by
  have hmax : ∀ (l : List Nat) (m : Nat), m ≤ l.foldl max m ∧ ∀ t ∈ l, t ≤ l.foldl max m := by
    intro l
    induction l with
    | nil => intro m; simp
    | cons x l ih =>
      intro m
      obtain ⟨h1, h2⟩ := ih (max m x)
      simp only [List.foldl_cons, List.mem_cons]
      refine ⟨le_trans (le_max_left m x) h1, ?_⟩
      rintro t (rfl | ht)
      · exact le_trans (le_max_right m t) h1
      · exact h2 t ht
  have h1 : s ≤ ss.foldl max 0 := (hmax ss 0).2 s hs
  have h2 := lt_two_pow_bitLen (ss.foldl max 0)
  have h3 : bitLen (ss.foldl max 0) ≤ c * (bitLen (ss.foldl max 0) / c + 1) := by
    have := Nat.lt_div_mul_add hc (a := bitLen (ss.foldl max 0))
    rw [Nat.mul_succ, Nat.mul_comm]
    omega
  exact lt_of_le_of_lt h1 (lt_of_lt_of_le h2 (Nat.pow_le_pow_right (by norm_num) h3))

/-- C8: with windows of positive width, `MultiExp` on sequences of equal length
returns the naive sum of the scalar multiples; on empty sequences it returns the
identity. -/
theorem G2.MultiExp_eq_naiveSum (c : Nat) (hc : 0 < c) (points : List G) (scalars : List Nat)
    (hlen : points.length = scalars.length) :
    G2.MultiExp c points scalars = Except.ok (G2.naiveSum points scalars G2.Zero) ∧
      G2.MultiExp c ([] : List G) [] = Except.ok G2.Zero := by
  have key : ∀ (ps : List G) (ss : List Nat), ps.length = ss.length →
      G2.MultiExp c ps ss = Except.ok (G2.naiveSum ps ss G2.Zero) := by
    intro ps ss h
    unfold G2.MultiExp
    rw [if_neg (by simpa using h)]
    simp only [G2.windowsLoop_eq, G2.naiveSum_eq, G2.Zero, smul_zero]
    rw [linComb_congr (fun s => s % 2 ^ (c * (bitLen (ss.foldl max 0) / c + 1))) id ps ss
      (fun s hs => Nat.mod_eq_of_lt (scalar_lt_windows c hc ss s hs))]
  refine ⟨key points scalars hlen, ?_⟩
  rw [key [] [] rfl]
  simp [G2.naiveSum]

/-- C8 witness: three integers as points, with windows of three bits. -/
theorem G2.MultiExp_eq_naiveSum_witness :
    0 < 3 ∧ ([3, 5, 7] : List Int).length = ([1000, 2001, 5] : List Nat).length ∧
      G2.MultiExp 3 ([3, 5, 7] : List Int) [1000, 2001, 5]
        = Except.ok (G2.naiveSum ([3, 5, 7] : List Int) [1000, 2001, 5] G2.Zero) ∧
      G2.MultiExp 3 ([] : List Int) [] = Except.ok G2.Zero :=
  ⟨by decide, rfl, G2.MultiExp_eq_naiveSum 3 (by decide) [3, 5, 7] [1000, 2001, 5] rfl⟩

/-- C9 witness: the cyclic group with `2 * q` elements, cofactor `2`, at a generator. -/
theorem G2.ClearCofactor_InCorrectSubgroup_witness :
    Nat.card (ZMod (2 * qBig.toNat)) = 2 * qBig.toNat ∧
      G2.InCorrectSubgroup (G2.ClearCofactor 2 (1 : ZMod (2 * qBig.toNat))) = true :=
  ⟨Nat.card_zmod _, G2.ClearCofactor_InCorrectSubgroup 2 (Nat.card_zmod _) 1⟩

end GroupThm

/-! ## Windowed and GLV-accelerated multiplication -/

section WnafThm
variable {G : Type} [AddCommGroup G]

theorem G2.tableFrom_getD (step : G) (n : Nat) (cur : G) (i : Nat) (h : i < n) :
    (G2.tableFrom step n cur).getD i G2.Zero = cur + i • step := by
  induction n generalizing cur i with
  | zero => omega
  | succ n ih =>
    cases i with
    | zero => simp [G2.tableFrom]
    | succ i =>
      simp only [G2.tableFrom, List.getD_cons_succ]
      rw [ih _ i (by omega), G2.Add, succ_nsmul]
      abel

/-- A valid digit looks up its own multiple of the point. -/
theorem G2.lookup_eq (w : Nat) (hw : 2 ≤ w) (p : G) (d : Int) (hd : validDigit w d) :
    G2.lookup (G2.oddMultiples w p) d = d • p := by
  obtain ⟨U, hU, hH⟩ : ∃ U : Nat, (2 : Nat) ^ (w - 2) = U ∧ (2 : Int) ^ (w - 1) = 2 * (U : Int) := by
    obtain ⟨u, rfl⟩ : ∃ u, w = u + 2 := ⟨w - 2, by omega⟩
    refine ⟨2 ^ u, by simp, ?_⟩
    rw [show u + 2 - 1 = u + 1 by omega, pow_succ]; push_cast; ring
  unfold G2.lookup
  rcases hd with rfl | ⟨h1, h2, h3⟩
  · simp [G2.Zero]
  · rw [hH] at h2 h3
    have hne : d ≠ 0 := by omega
    have hidx : d.natAbs / 2 < U := by omega
    have htab : (G2.oddMultiples w p).getD (d.natAbs / 2) G2.Zero
        = ((2 * (d.natAbs / 2) + 1 : Nat) : Int) • p := by
      rw [G2.oddMultiples, hU, G2.tableFrom_getD _ _ _ _ hidx, G2.Double]
      rw [natCast_zsmul, add_nsmul, mul_nsmul, one_nsmul, two_nsmul]
      abel
    rw [if_neg hne, htab]
    split_ifs with hpos
    · congr 1
      omega
    · rw [G2.Neg, ← neg_zsmul]
      congr 1
      omega

theorem G2.wnafEval_eq (w : Nat) (hw : 2 ≤ w) (p : G) (n : nafNumber)
    (hn : ∀ d ∈ n, validDigit w d) :
    G2.wnafEval (G2.oddMultiples w p) n = n.eval • p := by
  induction n with
  | nil => simp [G2.wnafEval, nafNumber.eval, G2.Zero]
  | cons d ds ih =>
    simp only [G2.wnafEval, nafNumber.eval, G2.Add, G2.Double]
    rw [ih (fun x hx => hn x (List.mem_cons_of_mem _ hx)),
      G2.lookup_eq w hw p d (hn d (List.mem_cons_self _ _)), add_zsmul, mul_zsmul, two_zsmul]
    abel

theorem G2.wnafEval2_eq (w : Nat) (hw : 2 ≤ w) (p1 p2 : G) (n1 n2 : nafNumber)
    (h1 : ∀ d ∈ n1, validDigit w d) (h2 : ∀ d ∈ n2, validDigit w d) :
    G2.wnafEval2 (G2.oddMultiples w p1) (G2.oddMultiples w p2) n1 n2
      = n1.eval • p1 + n2.eval • p2 := by
  induction n1 generalizing n2 with
  | nil =>
    induction n2 with
    | nil => simp [G2.wnafEval2, nafNumber.eval, G2.Zero]
    | cons e es ih2 =>
      simp only [G2.wnafEval2, nafNumber.eval, G2.Add, G2.Double] at ih2 ⊢
      rw [ih2 (fun x hx => h2 x (List.mem_cons_of_mem _ hx)),
        G2.lookup_eq w hw p2 e (h2 e (List.mem_cons_self _ _)), add_zsmul, mul_zsmul, two_zsmul]
      simp only [zero_smul, zero_add]
      abel
  | cons d ds ih =>
    have hd := G2.lookup_eq w hw p1 d (h1 d (List.mem_cons_self _ _))
    have hds : ∀ x ∈ ds, validDigit w x := fun x hx => h1 x (List.mem_cons_of_mem _ hx)
    cases n2 with
    | nil =>
      simp only [G2.wnafEval2, nafNumber.eval, G2.Add, G2.Double]
      rw [ih [] hds (by simp), hd, add_zsmul, mul_zsmul, two_zsmul]
      simp only [nafNumber.eval, zero_smul, add_zero]
      abel
    | cons e es =>
      simp only [G2.wnafEval2, nafNumber.eval, G2.Add, G2.Double]
      rw [ih es hds (fun x hx => h2 x (List.mem_cons_of_mem _ hx)), hd,
        G2.lookup_eq w hw p2 e (h2 e (List.mem_cons_self _ _)), add_zsmul, add_zsmul,
        mul_zsmul, mul_zsmul, two_zsmul, two_zsmul]
      abel

/-- The recoding of an arbitrary-precision scalar stands for its magnitude. -/
theorem bigToWNAF_spec (w : Nat) (hw : 2 ≤ w) (e : Int) :
    (bigToWNAF e w).eval = |e| ∧ ∀ d ∈ bigToWNAF e w, validDigit w d := by
  obtain ⟨h1, h2⟩ := toWNAFAux_spec w hw e.natAbs e.natAbs (le_refl _)
  exact ⟨by rw [bigToWNAF, h1, Int.natCast_natAbs], h2⟩

/-- The digit sequences of `glvVectorBig.wnaf` stand for `k1` and for `-k2`. -/
theorem glvVectorBig.wnaf_spec (v : glvVectorBig) (w : Nat) (hw : 2 ≤ w) :
    (v.wnaf w).1.eval = v.k1 ∧ (v.wnaf w).2.eval = -v.k2 ∧
      (∀ d ∈ (v.wnaf w).1, validDigit w d) ∧ (∀ d ∈ (v.wnaf w).2, validDigit w d) := by
  obtain ⟨e1, d1⟩ := bigToWNAF_spec w hw v.k1
  obtain ⟨e2, d2⟩ := bigToWNAF_spec w hw v.k2
  simp only [glvVectorBig.wnaf]
  refine ⟨?_, ?_, ?_, ?_⟩
  · split_ifs with h
    · rw [nafNumber.eval_neg, e1, abs_of_neg h, neg_neg]
    · rw [e1, abs_of_nonneg (not_lt.1 h)]
  · split_ifs with h
    · rw [nafNumber.eval_neg, e2, abs_of_pos h]
    · rw [e2, abs_of_nonpos (not_lt.1 h)]
  · split_ifs with h
    · exact nafNumber.valid_neg w _ d1
    · exact d1
  · split_ifs with h
    · exact nafNumber.valid_neg w _ d2
    · exact d2

/-- Windowed multiplication computes the scalar multiple of any point. -/
theorem G2.wnafMul_eq_zsmul (w : Nat) (hw : 2 ≤ w) (p : G) (e : Int) :
    G2.wnafMul w p e = |e| • p := by
  obtain ⟨h1, h2⟩ := bigToWNAF_spec w hw e
  rw [G2.wnafMul, G2.wnafEval_eq w hw p _ h2, h1]

/-- The GLV multiplication computes the scalar multiple of a point of order
dividing `q` on which the endomorphism acts as multiplication by `lambda`. -/
theorem G2.glvMul_eq_zsmul (w : Nat) (hw : 2 ≤ w) (phi : G → G) (p : G) (e : Int)
    (hq : qBig • p = 0) (hphi : phi p = glvLambdaBig • p) :
    G2.glvMul w phi p e = e • p := by
  obtain ⟨e1, e2, d1, d2⟩ := glvVectorBig.wnaf_spec (glvVectorBig.fresh.new e) w hw
  simp only [G2.glvMul]
  rw [G2.wnafEval2_eq w hw p (phi p) _ _ d1 d2, e1, e2, hphi, ← mul_zsmul, ← add_zsmul]
  have hcong := lattice_identity e
    ((e * glvQ1Big + halfRBig) >>> fourWordBitSize) ((e * glvQ2Big + halfRBig) >>> fourWordBitSize)
  obtain ⟨t, ht⟩ := (Int.modEq_iff_dvd.1 hcong)
  have hk : (glvVectorBig.fresh.new e).k1 + -(glvVectorBig.fresh.new e).k2 * glvLambdaBig
      = e - qBig * t := by
    simp only [glvVectorBig.new]
    linarith
  rw [hk, sub_zsmul, mul_comm, mul_zsmul, hq, smul_zero]
  simp

/-- C6: for a point of the subgroup of order `q`, on which the endomorphism acts
as multiplication by `lambda`, and every scalar `0 <= e <= q`, the windowed and
the GLV-accelerated multiplications agree with double-and-add; all of them give
the identity at `e = 0` and at `e = q`. -/
theorem G2.wnafMul_eq_MulScalar (w : Nat) (hw : 2 ≤ w) (phi : G → G) (a : G)
    (hq : qBig • a = 0) (hphi : phi a = glvLambdaBig • a) (e : Nat) (_he : (e : Int) ≤ qBig) :
    G2.wnafMul w a (e : Int) = G2.MulScalar a e ∧
      G2.glvMul w phi a (e : Int) = G2.MulScalar a e ∧
      G2.MulScalar a 0 = G2.Zero ∧ G2.wnafMul w a 0 = G2.Zero ∧ G2.glvMul w phi a 0 = G2.Zero ∧
      G2.MulScalar a qBig.toNat = G2.Zero ∧ G2.wnafMul w a qBig = G2.Zero ∧
      G2.glvMul w phi a qBig = G2.Zero := by
  have hqn : qBig.toNat • a = 0 := by
    rw [← natCast_zsmul, Int.toNat_of_nonneg (le_of_lt qBig_pos), hq]
  simp only [G2.wnafMul_eq_zsmul w hw, G2.glvMul_eq_zsmul w hw phi a _ hq hphi,
    G2.MulScalar_eq_nsmul, G2.Zero, hqn, hq, abs_of_pos qBig_pos]
  simp

/-- C6 witness: the cyclic group with `q` elements, at a generator, with the
endomorphism that multiplies by `lambda`, window `glvMulWindowG2` and `e = 5`. -/
theorem G2.wnafMul_eq_MulScalar_witness :
    2 ≤ glvMulWindowG2 ∧ qBig • (1 : ZMod qBig.toNat) = 0 ∧
      (fun x : ZMod qBig.toNat => glvLambdaBig • x) 1 = glvLambdaBig • (1 : ZMod qBig.toNat) ∧
      ((5 : Nat) : Int) ≤ qBig ∧
      (G2.wnafMul glvMulWindowG2 (1 : ZMod qBig.toNat) ((5 : Nat) : Int) = G2.MulScalar 1 5 ∧
      G2.glvMul glvMulWindowG2 (fun x => glvLambdaBig • x) (1 : ZMod qBig.toNat) ((5 : Nat) : Int)
        = G2.MulScalar 1 5 ∧
      G2.MulScalar (1 : ZMod qBig.toNat) 0 = G2.Zero ∧
      G2.wnafMul glvMulWindowG2 (1 : ZMod qBig.toNat) 0 = G2.Zero ∧
      G2.glvMul glvMulWindowG2 (fun x => glvLambdaBig • x) (1 : ZMod qBig.toNat) 0 = G2.Zero ∧
      G2.MulScalar (1 : ZMod qBig.toNat) qBig.toNat = G2.Zero ∧
      G2.wnafMul glvMulWindowG2 (1 : ZMod qBig.toNat) qBig = G2.Zero ∧
      G2.glvMul glvMulWindowG2 (fun x => glvLambdaBig • x) (1 : ZMod qBig.toNat) qBig
        = G2.Zero) :=
  have hq : qBig • (1 : ZMod qBig.toNat) = 0 := by
    rw [zsmul_one, ZMod.intCast_zmod_eq_zero_iff_dvd, Int.toNat_of_nonneg (le_of_lt qBig_pos)]
  ⟨by decide, hq, rfl, by norm_num [qBig],
    G2.wnafMul_eq_MulScalar glvMulWindowG2 (by decide) (fun x => glvLambdaBig • x) 1 hq rfl 5
      (by norm_num [qBig])⟩

end WnafThm

/-! ## Further properties of the decomposition -/

set_option maxRecDepth 100000 in
/-- C19: the eigenvalue `lambda = glvLambdaBig = glvB1Big = glvB2Big - 1` is a
primitive cube root of unity modulo `q = glvB2Big^2 - glvB2Big + 1`. -/
theorem glvLambdaBig_primitive_cube_root :
    glvLambdaBig = glvB1Big ∧ glvLambdaBig = glvB2Big - 1 ∧
      qBig = glvB2Big ^ 2 - glvB2Big + 1 ∧
      glvLambdaBig ^ 2 + glvLambdaBig + 1 ≡ 0 [ZMOD qBig] ∧
      glvLambdaBig ^ 3 ≡ 1 [ZMOD qBig] ∧ ¬ (glvLambdaBig ≡ 1 [ZMOD qBig]) := by
  decide

/-- C11: for every integer `m >= 0`, with no upper bound, the halves computed by
`glvVectorBig.new` satisfy `k1 - k2 * lambda ≡ m (mod q)`, where
`q = glvB2Big^2 - glvB2Big + 1`; the congruence holds whatever the two rounded
quotients are, and `glvVectorBig.wnaf` negates the first sequence when `k1 < 0`
and the second when `k2 > 0`. -/
theorem glvVectorBig_new_exact (v : glvVectorBig) (m : Int) (_h0 : 0 ≤ m) :
    qBig = glvB2Big ^ 2 - glvB2Big + 1 ∧
      (v.new m).k1 - (v.new m).k2 * glvLambdaBig ≡ m [ZMOD qBig] ∧
      (∀ a1 a2 : Int,
        (m - (a1 * glvB1Big) % qBig - a2) - ((a2 * glvB2Big) % qBig - a1) * glvLambdaBig
          ≡ m [ZMOD qBig]) ∧
      (∀ w : Nat, (v.new m).wnaf w
        = (if (v.new m).k1 < 0 then (bigToWNAF (v.new m).k1 w).neg
            else bigToWNAF (v.new m).k1 w,
           if (v.new m).k2 > 0 then (bigToWNAF (v.new m).k2 w).neg
            else bigToWNAF (v.new m).k2 w)) :=
  ⟨by rw [qBig_eq_B2, sq], lattice_identity m _ _, fun a1 a2 => lattice_identity m a1 a2,
    fun _ => rfl⟩

/-- C11 witness: the scalar `2^300`, far above `q`. -/
theorem glvVectorBig_new_exact_witness :
    (0 : Int) ≤ 2 ^ 300 ∧
      (glvVectorBig.fresh.new (2 ^ 300)).k1
        - (glvVectorBig.fresh.new (2 ^ 300)).k2 * glvLambdaBig ≡ 2 ^ 300 [ZMOD qBig] :=
  ⟨by norm_num, (glvVectorBig_new_exact glvVectorBig.fresh (2 ^ 300) (by norm_num)).2.1⟩

set_option maxRecDepth 100000 in
/-- C13 (evaluation): four of the five four-word constants denote the integer of
their arbitrary-precision twin; `glvQ2` denotes `13` while `glvQ2Big` is `14`. -/
theorem glvQ2_differs_from_glvQ2Big :
    (glvQ1.toNat : Int) = glvQ1Big ∧ (glvB1.toNat : Int) = glvB1Big ∧
      (glvB2.toNat : Int) = glvB2Big ∧ (glvLambda.toNat : Int) = glvLambdaBig ∧
      glvQ2Big = 14 ∧ (glvQ2.toNat : Int) = 13 ∧ (glvQ2.toNat : Int) ≠ glvQ2Big := by
  decide

set_option maxRecDepth 100000 in
/-- C12 (failing input): on a receiver whose flags are already raised, the scalar
`1` leaves both flags raised although both residues, `1` and `0`, are at most
`2^128 - 1`; a fresh receiver gets both flags false for the same scalar. -/
theorem glvVectorFr_new_keeps_stale_flags :
    (((⟨1, 0, 0, 0⟩ : Fr).toNat : Int) < qBig) ∧
      (Fr.Sub (Fr.Sub ⟨1, 0, 0, 0⟩ (Fr.Mul (alpha1 ⟨1, 0, 0, 0⟩) glvB1)) (alpha2 ⟨1, 0, 0, 0⟩)).toNat
        = 1 ∧
      (Fr.Sub (Fr.Mul (alpha2 ⟨1, 0, 0, 0⟩) glvB2) (alpha1 ⟨1, 0, 0, 0⟩)).toNat = 0 ∧
      (staleReceiver.new ⟨1, 0, 0, 0⟩).neg1 = true ∧
      (staleReceiver.new ⟨1, 0, 0, 0⟩).neg2 = true ∧
      (glvVectorFr.fresh.new ⟨1, 0, 0, 0⟩).neg1 = false ∧
      (glvVectorFr.fresh.new ⟨1, 0, 0, 0⟩).neg2 = false := by
  decide

/-- C14: `glvVectorFr.wnaf` on the magnitudes and sign flags of `k1, k2` returns
the same pair of digit sequences as `glvVectorBig.wnaf` on `k1, k2`, for every
window width. -/
theorem wnaf_signs_agree (w : Nat) (k1 k2 : Int) (a1 a2 : Fr)
    (h1 : a1.toNat = k1.natAbs) (h2 : a2.toNat = k2.natAbs) :
    glvVectorFr.wnaf ⟨a1, a2, decide (k1 < 0), decide (k2 < 0)⟩ w
      = glvVectorBig.wnaf ⟨k1, k2⟩ w := by
  have e1 : a1.toWNAF w = bigToWNAF k1 w := by rw [Fr.toWNAF, bigToWNAF, h1]
  have e2 : a2.toWNAF w = bigToWNAF k2 w := by rw [Fr.toWNAF, bigToWNAF, h2]
  simp only [glvVectorFr.wnaf, glvVectorBig.wnaf, e1, e2]
  congr 1
  · by_cases h : k1 < 0 <;> simp [h]
  · rcases lt_trichotomy k2 0 with h | h | h
    · simp [h, not_lt.2 (le_of_lt h)]
    · subst h
      simp [bigToWNAF, toWNAFAux, nafNumber.neg]
    · simp [h, not_lt.2 (le_of_lt h)]

/-- C14 witness: `k1 = -5`, `k2 = 0` and window width `4`. -/
theorem wnaf_signs_agree_witness :
    (⟨5, 0, 0, 0⟩ : Fr).toNat = (-5 : Int).natAbs ∧ (⟨0, 0, 0, 0⟩ : Fr).toNat = (0 : Int).natAbs ∧
      glvVectorFr.wnaf ⟨⟨5, 0, 0, 0⟩, ⟨0, 0, 0, 0⟩, decide ((-5 : Int) < 0), decide ((0 : Int) < 0)⟩ 4
        = glvVectorBig.wnaf ⟨-5, 0⟩ 4 :=
  ⟨by decide, by decide, wnaf_signs_agree 4 (-5) 0 ⟨5, 0, 0, 0⟩ ⟨0, 0, 0, 0⟩ (by decide) (by decide)⟩

/-- C15: for every scalar `m` below `q` and either multiplier `13` or `14`, the
products `alpha1 * glvB1` and `alpha2 * glvB2` stay below `q`, so the reductions
of `glvVectorBig.new` and the modular `Fr.Mul` of `glvVectorFr.new` return the
exact integer products. -/
theorem products_below_modulus (m : Fr) (h : (m.toNat : Int) < qBig) (Q2 : Int)
    (hQ : Q2 = 13 ∨ Q2 = 14) :
    (((m.toNat : Int) * glvQ1Big + halfRBig) >>> fourWordBitSize) * glvB1Big < qBig ∧
      (((m.toNat : Int) * Q2 + halfRBig) >>> fourWordBitSize) * glvB2Big < qBig ∧
      ((((m.toNat : Int) * glvQ1Big + halfRBig) >>> fourWordBitSize) * glvB1Big) % qBig
        = (((m.toNat : Int) * glvQ1Big + halfRBig) >>> fourWordBitSize) * glvB1Big ∧
      ((((m.toNat : Int) * Q2 + halfRBig) >>> fourWordBitSize) * glvB2Big) % qBig
        = (((m.toNat : Int) * Q2 + halfRBig) >>> fourWordBitSize) * glvB2Big ∧
      ((Fr.Mul (alpha1 m) glvB1).toNat : Int)
        = ((alpha1 m).toNat : Int) * (glvB1.toNat : Int) ∧
      ((Fr.Mul (alpha2 m) glvB2).toNat : Int)
        = ((alpha2 m).toNat : Int) * (glvB2.toNat : Int) := by
  have h0 : (0 : Int) ≤ m.toNat := Int.ofNat_nonneg _
  obtain ⟨ha, hb⟩ := rsh_bracket ((m.toNat : Int) * glvQ1Big)
  obtain ⟨hc, hd⟩ := rsh_bracket ((m.toNat : Int) * Q2)
  obtain ⟨hc', hd'⟩ := rsh_bracket ((m.toNat : Int) * 13)
  obtain ⟨r1, r2⟩ := alpha1_range _ _ h0 h ha hb
  obtain ⟨r3, r4⟩ := alpha2_range _ _ Q2 h0 h hQ hc hd
  obtain ⟨r5, r6⟩ := alpha2_range _ _ 13 h0 h (Or.inl rfl) hc' hd'
  obtain ⟨e1, e2⟩ := z_exact _ _ r1 r2 r3 r4
  obtain ⟨-, e3⟩ := z_exact _ _ r1 r2 r5 r6
  have l1 := Int.emod_lt_of_pos
    ((((m.toNat : Int) * glvQ1Big + halfRBig) >>> fourWordBitSize) * glvB1Big) qBig_pos
  have l2 := Int.emod_lt_of_pos
    ((((m.toNat : Int) * Q2 + halfRBig) >>> fourWordBitSize) * glvB2Big) qBig_pos
  rw [e1] at l1
  rw [e2] at l2
  refine ⟨l1, l2, e1, e2, ?_, ?_⟩
  · rw [Fr.Mul_toNat, alpha1_toNat m h, glvB1_toNat, e1]
  · rw [Fr.Mul_toNat, alpha2_toNat m h, glvB2_toNat, e3]

/-- C15 witness: the scalar with words `1, 2, 3, 4` and the multiplier `14`. -/
theorem products_below_modulus_witness :
    (((⟨1, 2, 3, 4⟩ : Fr).toNat : Int) < qBig) ∧ ((14 : Int) = 13 ∨ (14 : Int) = 14) ∧
      ((((⟨1, 2, 3, 4⟩ : Fr).toNat : Int) * glvQ1Big + halfRBig) >>> fourWordBitSize) * glvB1Big
        < qBig ∧
      ((Fr.Mul (alpha2 ⟨1, 2, 3, 4⟩) glvB2).toNat : Int)
        = ((alpha2 ⟨1, 2, 3, 4⟩).toNat : Int) * (glvB2.toNat : Int) :=
  have hm : (((⟨1, 2, 3, 4⟩ : Fr).toNat : Int) < qBig) := by norm_num [Fr.toNat, qBig]
  have key := products_below_modulus ⟨1, 2, 3, 4⟩ hm 14 (Or.inr rfl)
  ⟨hm, Or.inr rfl, key.1, key.2.2.2.2.2⟩

/-! ## Rounding -/

theorem round_div_eq_zero (m q : Int) (h0 : 0 ≤ m) (hq : 0 < q) (h : 2 * m < q) :
    round ((m : ℚ) / (q : ℚ)) = 0 := by
  have hq' : (0 : ℚ) < q := by exact_mod_cast hq
  have h0' : (0 : ℚ) ≤ m := by exact_mod_cast h0
  have h' : (2 : ℚ) * m < q := by exact_mod_cast h
  rw [round_eq, Int.floor_eq_iff]
  constructor
  · have : (0 : ℚ) ≤ (m : ℚ) / q := div_nonneg h0' (le_of_lt hq')
    push_cast
    linarith
  · have : (m : ℚ) / q < 1 / 2 := by
      rw [div_lt_iff₀ hq']
      linarith
    push_cast
    linarith

set_option maxRecDepth 100000 in
/-- C16 (failing input): at `m = ceil(2^255 / 14)`, which lies in `[0, q)`, the
second rounded quotient of `glvVectorBig.new`, formed with `glvQ2Big = 14`, is `1`
while `round (m / q)`, the value its comment names, is `0`; the function `alpha2`
of the four-word path returns `0` at the same scalar. -/
theorem alpha2_not_round_m_div_q :
    (0 : Int) ≤ 0x0924924924924924924924924924924924924924924924924924924924924925 ∧
      (0x0924924924924924924924924924924924924924924924924924924924924925 : Int) < qBig ∧
      ((0x0924924924924924924924924924924924924924924924924924924924924925 : Int) * glvQ2Big
          + halfRBig) >>> fourWordBitSize = 1 ∧
      round (((0x0924924924924924924924924924924924924924924924924924924924924925 : Int) : ℚ)
          / (qBig : ℚ)) = 0 ∧
      ((0x0924924924924924924924924924924924924924924924924924924924924925 : Int) * glvQ2Big
          + halfRBig) >>> fourWordBitSize
        ≠ round (((0x0924924924924924924924924924924924924924924924924924924924924925 : Int) : ℚ)
          / (qBig : ℚ)) ∧
      (glvVectorBig.fresh.new 0x0924924924924924924924924924924924924924924924924924924924924925).k2
        = 1 * glvB2Big - 0x21db21856122fae8048d3f54188e4a02 ∧
      ((⟨0x4924924924924925, 0x2492492492492492, 0x9249249249249249, 0x0924924924924924⟩ : Fr).toNat
          : Int) = 0x0924924924924924924924924924924924924924924924924924924924924925 ∧
      (alpha2 ⟨0x4924924924924925, 0x2492492492492492, 0x9249249249249249,
          0x0924924924924924⟩).toNat = 0 := by
  have h1 : ((0x0924924924924924924924924924924924924924924924924924924924924925 : Int) * glvQ2Big
      + halfRBig) >>> fourWordBitSize = 1 := by
    decide
  have h2 : round (((0x0924924924924924924924924924924924924924924924924924924924924925 : Int) : ℚ)
      / (qBig : ℚ)) = 0 :=
    round_div_eq_zero _ qBig (by norm_num) qBig_pos (by norm_num [qBig])
  refine ⟨by norm_num, by norm_num [qBig], h1, h2, ?_, by decide, by decide, by decide⟩
  rw [h1, h2]
  norm_num

/-! ## Base-field constants -/

set_option maxRecDepth 100000 in
/-- C17: read in Montgomery form modulo the base prime, `glvPhi1` and `glvPhi2` are
cube roots of unity different from `1`. -/
theorem glvPhi_cube_roots :
    montgomeryInverse * (2 ^ 192 * 2 ^ 192) % modulus = 1 ∧
      glvPhi1.toNat < modulus ∧ glvPhi2.toNat < modulus ∧
      glvPhi1.value ^ 3 % modulus = 1 ∧ glvPhi1.value ≠ 1 ∧
      glvPhi2.value ^ 3 % modulus = 1 ∧ glvPhi2.value ≠ 1 := by
  decide

/-! ## Curve membership -/

section CurveThm

variable {F : Type} [Field F]

/-- The curve equation survives the passage to affine coordinates followed by a
scaling of `x` by a cube root of unity, in any commutative ring. -/
theorem curve_equation_scaled {R : Type} [CommRing R] (X Y Z W C b : R)
    (hY : Y * Y = X * X * X + b * (Z * Z * (Z * Z) * (Z * Z))) (hZ : Z * W = 1)
    (hC : C * C * C = 1) :
    Y * (W * (W * W)) * (Y * (W * (W * W)))
      = X * (W * W) * C * (X * (W * W) * C) * (X * (W * W) * C)
        + b * (1 * 1 * (1 * 1) * (1 * 1)) := by
  linear_combination (W ^ 6) * hY - (X ^ 3 * W ^ 6) * hC
    + b * (1 + Z * W + (Z * W) ^ 2 + (Z * W) ^ 3 + (Z * W) ^ 4 + (Z * W) ^ 5) * hZ

/-- When `u^2` is a non-residue, a non-zero element of the extension times its
inverse is one. -/
theorem fp2.mul_inverse (e : fp2 F) (hnr : ∀ a : F, a * a ≠ e.nonResidue) (z : fe2 F)
    (hz : z ≠ fe2.zero) : e.mul z (e.inverse z) = fe2.one := by
  have hN : z.c0 * z.c0 - e.nonResidue * (z.c1 * z.c1) ≠ 0 := by
    intro h0
    by_cases h1 : z.c1 = 0
    · have : z.c0 = 0 := by
        rw [h1] at h0
        simpa using h0
      apply hz
      rcases z with ⟨z0, z1⟩
      simp only [fe2.zero, fe2.mk.injEq]
      exact ⟨this, h1⟩
    · apply hnr (z.c0 / z.c1)
      field_simp
      linear_combination h0
  simp only [fp2.mul, fp2.inverse, fe2.one, fe2.mk.injEq]
  constructor
  · field_simp
    ring
  · ring

theorem fp2.phi_eq_mul (e : fp2 F) (c : F) (x : fe2 F) : e.phi c x = e.mul x ⟨c, 0⟩ := by
  simp [fp2.phi, fp2.mul, bls12377.mul]

theorem fp2.cube_of_base (e : fp2 F) (c : F) (hc : c ^ 3 = 1) :
    e.mul (e.mul ⟨c, 0⟩ ⟨c, 0⟩) ⟨c, 0⟩ = fe2.one := by
  simp only [fp2.mul, fe2.one, fe2.mk.injEq]
  constructor
  · linear_combination hc
  · ring

/-- C18: when `u^2` is a non-residue and the cube of `glvPhi2` is one,
`G2.glvEndomorphism` writes a point on the curve `Y^2 = X^3 + b Z^6` whenever its
argument is on that curve; the identity is mapped to the identity. -/
theorem glvEndomorphism_IsOnCurve [DecidableEq F] (g : G2 F) (b : fe2 F) (glvPhi2 : F)
    (hnr : ∀ a : F, a * a ≠ g.f.nonResidue) (hphi : glvPhi2 ^ 3 = 1) (r p : PointG2 F)
    (hp : g.IsOnCurve b p = true) :
    g.IsOnCurve b (g.glvEndomorphism glvPhi2 r p) = true ∧
      (g.IsZero p = true → g.IsZero (g.glvEndomorphism glvPhi2 r p) = true) := by
  by_cases hz : p.z = fe2.zero
  · simp [G2.glvEndomorphism, G2.IsZero, hz, PointG2.Zero, G2.IsOnCurve]
  · have hone : (fe2.one : fe2 F) ≠ fe2.zero := by simp [fe2.one, fe2.zero]
    have hY : g.f.square p.y = g.f.add (g.f.mul (g.f.square p.x) p.x)
        (g.f.mul b (g.f.mul (g.f.square (g.f.square p.z)) (g.f.square p.z))) := by
      simpa [G2.IsOnCurve, G2.IsZero, hz] using hp
    have hZ := fp2.mul_inverse g.f hnr p.z hz
    have hC := fp2.cube_of_base g.f glvPhi2 hphi
    refine ⟨?_, fun h => absurd (by simpa [G2.IsZero] using h) hz⟩
    simp only [G2.glvEndomorphism, G2.IsZero, hz, G2.Affine, G2.IsOnCurve, hone, decide_False,
      Bool.false_eq_true, if_false, decide_eq_true_eq, fp2.phi_eq_mul, fp2.square] at hY ⊢
    letI := fe2.commRing g.f
    exact curve_equation_scaled (R := fe2 F) p.x p.y p.z (g.f.inverse p.z) ⟨glvPhi2, 0⟩ b hY hZ hC

/-- C18 witness: over the field with seven elements, with `u^2 = 3`, the cube root
of unity `2`, the curve `Y^2 = X^3 + 4 Z^6` and its point `(1, 2, u)`. -/
theorem glvEndomorphism_IsOnCurve_witness :
    (∀ a : ZMod 7, a * a ≠ (⟨3⟩ : fp2 (ZMod 7)).nonResidue) ∧ (2 : ZMod 7) ^ 3 = 1 ∧
      G2.IsOnCurve (⟨⟨3⟩⟩ : G2 (ZMod 7)) ⟨4, 0⟩ ⟨⟨1, 0⟩, ⟨2, 0⟩, ⟨0, 1⟩⟩ = true ∧
      G2.IsOnCurve (⟨⟨3⟩⟩ : G2 (ZMod 7)) ⟨4, 0⟩
        (G2.glvEndomorphism (⟨⟨3⟩⟩ : G2 (ZMod 7)) 2 ⟨⟨0, 0⟩, ⟨0, 0⟩, ⟨0, 0⟩⟩
          ⟨⟨1, 0⟩, ⟨2, 0⟩, ⟨0, 1⟩⟩) = true :=
  ⟨by decide, by decide, by decide,
    (glvEndomorphism_IsOnCurve (⟨⟨3⟩⟩ : G2 (ZMod 7)) ⟨4, 0⟩ 2 (by decide) (by decide)
      ⟨⟨0, 0⟩, ⟨0, 0⟩, ⟨0, 0⟩⟩ ⟨⟨1, 0⟩, ⟨2, 0⟩, ⟨0, 1⟩⟩ (by decide)).1⟩

end CurveThm

end bls12377
